import Mathlib

/-!
Verification of the k-clique / maximum-clique solvers.

This file gives a shallow embedding of the clique-search engine:

* `KGraph` with `addEdge` / `hasEdge` / `getNeighbors` / `getDegree` /
  `isClique` (the `Graph` class of `k_clique_solver.cpp`);
* the decision-form exact backtracking solver, the greedy-coloring solver and
  the tabu-search solver of `k_clique_solver.cpp`;
* `MCGraph` with the optimization-form `ExactBacktracking` and
  `BranchAndBound` solvers of `src/maximum_clique.cpp`;
* `QGraph` with `solve_exact` / `expand` of `kclique.cpp`;

together with theorems settling the specified properties: validity of returned
cliques, optimality of the exact solvers against a brute-force subset
enumeration, early exit of the decision form, `addEdge` invariants and
idempotence, tabu-tenure discipline, and the greedy-coloring properness.

C++ `std::set<int>` neighbor sets are modelled as sorted duplicate-free lists
(`setInsert`), `std::map` iteration as ascending key order, machine integers as
`Int`/`Nat` (no overflow is reachable for the quantities involved: sizes and
iteration counts stay far below 2^31), and the tabu solver's random number
generator as an explicit oracle stream of naturals.
-/

namespace KClique

/-- Ordered insertion into a sorted duplicate-free list; models
`std::set<int>::insert`. -/
def setInsert (x : Nat) : List Nat → List Nat
  | [] => [x]
  | y :: ys => if x < y then x :: y :: ys else if x = y then y :: ys else y :: setInsert x ys

theorem mem_setInsert (a x : Nat) (l : List Nat) :
    a ∈ setInsert x l ↔ a = x ∨ a ∈ l := by
  induction l with
  | nil => simp [setInsert]
  | cons y ys ih =>
    simp only [setInsert]
    split
    · simp only [List.mem_cons]
    · split
      · rename_i hlt heq
        subst heq
        simp only [List.mem_cons]
        tauto
      · simp only [List.mem_cons, ih]
        tauto

theorem setInsert_sorted {l : List Nat} (h : l.Sorted (· < ·)) (x : Nat) :
    (setInsert x l).Sorted (· < ·) := by
  induction l with
  | nil => simp [setInsert]
  | cons y ys ih =>
    rw [List.sorted_cons] at h
    obtain ⟨hy, hys⟩ := h
    simp only [setInsert]
    split
    · rename_i hlt
      rw [List.sorted_cons]
      refine ⟨?_, ?_⟩
      · intro b hb
        rcases List.mem_cons.mp hb with hb | hb
        · omega
        · exact lt_trans hlt (hy b hb)
      · rw [List.sorted_cons]; exact ⟨hy, hys⟩
    · split
      · rename_i h1 h2
        subst h2
        rw [List.sorted_cons]; exact ⟨hy, hys⟩
      · rename_i h1 h2
        rw [List.sorted_cons]
        refine ⟨?_, ih hys⟩
        intro b hb
        rcases (mem_setInsert b x ys).mp hb with hb | hb
        · omega
        · exact hy b hb

theorem setInsert_length_of_not_mem {l : List Nat} {x : Nat} (h : x ∉ l) :
    (setInsert x l).length = l.length + 1 := by
  induction l with
  | nil => simp [setInsert]
  | cons y ys ih =>
    simp only [List.mem_cons, not_or] at h
    simp only [setInsert]
    split
    · simp
    · split
      · exact absurd (by assumption) h.1
      · simp [ih h.2]

/-- The `Graph` class of `k_clique_solver.cpp`: dense boolean adjacency matrix,
per-vertex neighbor sets (`std::set<int>`, kept sorted), and a degree counter
per vertex. -/
structure KGraph where
  n : Nat
  adjMat : Nat → Nat → Bool
  adjList : Nat → List Nat
  degrees : Nat → Nat

/-- `Graph::addEdge` of `k_clique_solver.cpp`: out-of-range endpoints are
rejected (warning logged, state unchanged); self-loops and already-present
edges are ignored; otherwise both matrix directions are set, both neighbor
sets extended and both degrees incremented. -/
def KGraph.addEdge (g : KGraph) (u v : Int) : KGraph :=
  if u < 0 ∨ v < 0 ∨ (g.n : Int) ≤ u ∨ (g.n : Int) ≤ v then g
  else if u.toNat = v.toNat ∨ g.adjMat u.toNat v.toNat then g
  else
    { n := g.n
      adjMat := fun a b =>
        if (a = u.toNat ∧ b = v.toNat) ∨ (a = v.toNat ∧ b = u.toNat) then true
        else g.adjMat a b
      adjList := fun a =>
        if a = u.toNat then setInsert v.toNat (g.adjList a)
        else if a = v.toNat then setInsert u.toNat (g.adjList a)
        else g.adjList a
      degrees := fun a =>
        if a = u.toNat ∨ a = v.toNat then g.degrees a + 1 else g.degrees a }

/-- `Graph::isClique` of `k_clique_solver.cpp`: the double loop checking
`adj_matrix[nodes[i]][nodes[j]]` for every pair of positions `i < j`. -/
def KGraph.isCliqueB (g : KGraph) : List Nat → Bool
  | [] => true
  | v :: rest => (rest.all fun u => g.adjMat v u) && g.isCliqueB rest

theorem isCliqueB_iff_pairwise (g : KGraph) (l : List Nat) :
    g.isCliqueB l = true ↔ l.Pairwise (fun a b => g.adjMat a b = true) := by
  induction l with
  | nil => simp [KGraph.isCliqueB]
  | cons v rest ih =>
    simp [KGraph.isCliqueB, ih, List.pairwise_cons, List.all_eq_true]

/-- The internal consistency invariants of `Graph` (spec §3): symmetric
loop-free adjacency supported on `[0, n)`, neighbor sets matching the matrix,
kept sorted and duplicate-free, and `degrees[v] = |neighbors(v)|`. -/
structure KGraph.Wf (g : KGraph) : Prop where
  symm : ∀ u v, g.adjMat u v = g.adjMat v u
  loopless : ∀ v, g.adjMat v v = false
  bounded : ∀ u v, g.adjMat u v = true → u < g.n ∧ v < g.n
  mem_adjList : ∀ u v, v ∈ g.adjList u ↔ g.adjMat u v = true
  sorted : ∀ u, (g.adjList u).Sorted (· < ·)
  degree_eq : ∀ u, g.degrees u = (g.adjList u).length

/-- A `Graph(n)` freshly constructed: no edges, empty neighbor sets, zero
degrees. -/
def KGraph.empty (n : Nat) : KGraph :=
  { n := n, adjMat := fun _ _ => false, adjList := fun _ => [], degrees := fun _ => 0 }

theorem wf_empty (n : Nat) : (KGraph.empty n).Wf := by
  constructor <;> simp [KGraph.empty]

theorem wf_addEdge {g : KGraph} (hg : g.Wf) (u v : Int) : (g.addEdge u v).Wf := by
  unfold KGraph.addEdge
  split
  · exact hg
  · split
    · exact hg
    · rename_i hrange huv
      simp only [not_or, not_lt, not_le] at hrange
      obtain ⟨hu0, hv0, hun, hvn⟩ := hrange
      simp only [not_or] at huv
      obtain ⟨hne, hmat⟩ := huv
      have hun' : u.toNat < g.n := by omega
      have hvn' : v.toNat < g.n := by omega
      have hmat' : g.adjMat u.toNat v.toNat = false := Bool.not_eq_true _ ▸ hmat
      have hmatvu : g.adjMat v.toNat u.toNat = false := by rw [hg.symm]; exact hmat'
      constructor
      · intro a b
        simp only
        rcases Decidable.em ((a = u.toNat ∧ b = v.toNat) ∨ (a = v.toNat ∧ b = u.toNat)) with
          h | h
        · rcases h with ⟨h1, h2⟩ | ⟨h1, h2⟩
          · rw [if_pos (Or.inl ⟨h1, h2⟩), if_pos (Or.inr ⟨h2, h1⟩)]
          · rw [if_pos (Or.inr ⟨h1, h2⟩), if_pos (Or.inl ⟨h2, h1⟩)]
        · rw [if_neg h,
            if_neg (fun hc => h (hc.elim (fun ⟨x, y⟩ => Or.inr ⟨y, x⟩)
              (fun ⟨x, y⟩ => Or.inl ⟨y, x⟩)))]
          exact hg.symm a b
      · intro a
        simp only
        rw [if_neg (fun h => h.elim (fun hc => hne (hc.1.symm.trans hc.2))
          (fun hc => hne (hc.2.symm.trans hc.1)))]
        exact hg.loopless a
      · intro a b
        simp only
        split
        · rename_i h
          intro _
          rcases h with ⟨ha, hb⟩ | ⟨ha, hb⟩ <;> subst ha <;> subst hb
          · exact ⟨hun', hvn'⟩
          · exact ⟨hvn', hun'⟩
        · exact hg.bounded a b
      · intro a b
        simp only
        by_cases hau : a = u.toNat
        · subst hau
          rw [if_pos rfl, mem_setInsert, hg.mem_adjList]
          by_cases hbv : b = v.toNat
          · subst hbv
            rw [if_pos (Or.inl ⟨rfl, rfl⟩)]
            simp
          · rw [if_neg (fun hc => hc.elim (fun h => hbv h.2) (fun h => hne h.1))]
            simp [hbv]
        · by_cases hav : a = v.toNat
          · subst hav
            rw [if_neg hau, if_pos rfl, mem_setInsert, hg.mem_adjList]
            by_cases hbu : b = u.toNat
            · subst hbu
              rw [if_pos (Or.inr ⟨rfl, rfl⟩)]
              simp
            · rw [if_neg (fun hc => hc.elim (fun h => hau h.1) (fun h => hbu h.2))]
              simp [hbu]
          · rw [if_neg hau, if_neg hav,
              if_neg (fun hc => hc.elim (fun h => hau h.1) (fun h => hav h.1))]
            exact hg.mem_adjList a b
      · intro a
        simp only
        split
        · exact setInsert_sorted (hg.sorted a) _
        · split
          · exact setInsert_sorted (hg.sorted a) _
          · exact hg.sorted a
      · intro a
        simp only
        by_cases hau : a = u.toNat
        · subst hau
          rw [if_pos (Or.inl rfl), if_pos rfl,
            setInsert_length_of_not_mem
              (fun hmem => hmat ((hg.mem_adjList _ _).mp hmem)),
            hg.degree_eq]
        · by_cases hav : a = v.toNat
          · subst hav
            rw [if_pos (Or.inr rfl), if_neg hau, if_pos rfl,
              setInsert_length_of_not_mem
                (fun hmem => by
                  have := (hg.mem_adjList _ _).mp hmem
                  rw [hmatvu] at this
                  exact Bool.false_ne_true this),
              hg.degree_eq]
          · rw [if_neg (fun hc => hc.elim hau hav), if_neg hau, if_neg hav]
            exact hg.degree_eq a

/-- Build a graph the way every `main` in the repository does: construct
`Graph(n)` and call `addEdge` once per listed edge. -/
def mkGraph (n : Nat) (es : List (Int × Int)) : KGraph :=
  es.foldl (fun g e => g.addEdge e.1 e.2) (KGraph.empty n)

theorem wf_mkGraph (n : Nat) (es : List (Int × Int)) : (mkGraph n es).Wf := by
  suffices h : ∀ g : KGraph, g.Wf → (es.foldl (fun g e => g.addEdge e.1 e.2) g).Wf by
    exact h _ (wf_empty n)
  induction es with
  | nil => intro g hg; exact hg
  | cons e es ih => intro g hg; exact ih _ (wf_addEdge hg e.1 e.2)

/-! ## Exact backtracking solver (decision form), `k_clique_solver.cpp` -/

/-- The mutable state of `ExactBacktrackingSolver`: the partial clique, the
best clique, the success flag and the node counter. -/
structure BTState where
  current : List Nat
  best : List Nat
  found : Bool
  nodes : Nat
deriving DecidableEq

mutual

/-- `ExactBacktrackingSolver::backtrack(start)`: count the node; on
`current.size() == k` record success; prune when fewer vertices remain than
are needed; otherwise run the candidate loop from `start`. -/
def backtrackE (g : KGraph) (k : Int) (start : Nat) (st : BTState) : BTState :=
  let st1 : BTState := { st with nodes := st.nodes + 1 }
  if (st1.current.length : Int) = k then
    { st1 with best := st1.current, found := true }
  else if (g.n : Int) - (start : Int) < k - (st1.current.length : Int) then st1
  else btForE g k start st1
termination_by 2 * (g.n + 1 - start) + 1
decreasing_by all_goals (simp_wf <;> omega)

/-- The `for (int i = start; i < n; i++)` loop body of `backtrack`: return as
soon as `found` is set; if `i` is connected to the whole current clique, push
it, recurse from `i + 1`, then pop it. -/
def btForE (g : KGraph) (k : Int) (i : Nat) (st : BTState) : BTState :=
  if h : i < g.n then
    if st.found then st
    else if st.current.all (fun node => g.adjMat i node) then
      let st1 := backtrackE g k (i + 1) { st with current := st.current ++ [i] }
      btForE g k (i + 1) { st1 with current := st1.current.dropLast }
    else btForE g k (i + 1) st
  else st
termination_by 2 * (g.n + 1 - i)
decreasing_by all_goals (simp_wf <;> omega)

end

/-- The fields of `SolutionResult` that the algorithms determine (wall-clock
time and the name string are reporting-only). -/
structure SolutionResult where
  clique : List Nat
  found : Bool
  nodesExplored : Nat
deriving DecidableEq

/-- `ExactBacktrackingSolver::solve`: reset the state, run `backtrack(0)`,
package the result. -/
def solveExact (g : KGraph) (k : Int) : SolutionResult :=
  let st := backtrackE g k 0 { current := [], best := [], found := false, nodes := 0 }
  { clique := st.best, found := st.found, nodesExplored := st.nodes }

theorem btForE_current (g : KGraph) (k : Int) :
    ∀ m i st, g.n + 1 - i ≤ m → (btForE g k i st).current = st.current := by
  intro m
  induction m with
  | zero =>
    intro i st h
    rw [btForE]
    rw [dif_neg (by omega)]
  | succ m ih =>
    intro i st h
    rw [btForE]
    split
    · rename_i hi
      split
      · rfl
      · split
        · have hrec : (backtrackE g k (i + 1)
              { st with current := st.current ++ [i] }).current = st.current ++ [i] := by
            rw [backtrackE]
            split
            · rfl
            · split
              · rfl
              · exact ih (i + 1) _ (by omega)
          rw [ih (i + 1) _ (by omega), hrec, List.dropLast_concat]
        · exact ih (i + 1) st (by omega)
    · rfl

theorem backtrackE_current (g : KGraph) (k : Int) (start : Nat) (st : BTState) :
    (backtrackE g k start st).current = st.current := by
  rw [backtrackE]
  split
  · rfl
  · split
    · rfl
    · exact btForE_current g k _ start _ le_rfl

/-- The invariant carried by the decision-form search: the partial clique is a
clique, and on success the recorded best clique is a clique of size exactly
`k`. -/
def BTGood (g : KGraph) (k : Int) (st : BTState) : Prop :=
  g.isCliqueB st.current = true ∧
    (st.found = true → g.isCliqueB st.best = true ∧ (st.best.length : Int) = k)

theorem btForE_good (g : KGraph) (hg : g.Wf) (k : Int) :
    ∀ m i st, g.n + 1 - i ≤ m → BTGood g k st → BTGood g k (btForE g k i st) := by
  intro m
  induction m with
  | zero =>
    intro i st h hst
    rw [btForE, dif_neg (by omega)]
    exact hst
  | succ m ih =>
    intro i st h hst
    rw [btForE]
    split
    · rename_i hi
      split
      · exact hst
      · split
        · rename_i hconn
          obtain ⟨hst1, hst2⟩ := hst
          have hclique : g.isCliqueB (st.current ++ [i]) = true := by
            rw [isCliqueB_iff_pairwise] at hst1 ⊢
            rw [List.pairwise_append]
            refine ⟨hst1, by simp, ?_⟩
            intro a ha b hb
            rw [List.mem_singleton] at hb
            subst hb
            rw [hg.symm]
            exact (List.all_eq_true.mp hconn) a ha
          have h1 : BTGood g k (backtrackE g k (i + 1)
              { st with current := st.current ++ [i] }) := by
            rw [backtrackE]
            split
            · rename_i hlen
              exact ⟨hclique, fun _ => ⟨hclique, hlen⟩⟩
            · split
              · exact ⟨hclique, hst2⟩
              · exact ih (i + 1) _ (by omega) ⟨hclique, hst2⟩
          refine ih (i + 1) _ (by omega) ?_
          constructor
          · rw [backtrackE_current]
            simp only [List.dropLast_concat]
            exact hst1
          · exact h1.2
        · exact ih (i + 1) st (by omega) hst
    · exact hst

theorem backtrackE_good (g : KGraph) (hg : g.Wf) (k : Int) (start : Nat) (st : BTState)
    (hst : BTGood g k st) : BTGood g k (backtrackE g k start st) := by
  rw [backtrackE]
  split
  · rename_i hlen
    exact ⟨hst.1, fun _ => ⟨hst.1, hlen⟩⟩
  · split
    · exact ⟨hst.1, hst.2⟩
    · exact btForE_good g hg k _ start _ le_rfl ⟨hst.1, hst.2⟩

/-- On success the decision-form exact solver's answer is a clique of size
exactly `k`. -/
theorem solveExact_found (g : KGraph) (hg : g.Wf) (k : Int)
    (h : (solveExact g k).found = true) :
    g.isCliqueB (solveExact g k).clique = true ∧
      ((solveExact g k).clique.length : Int) = k := by
  have hgood : BTGood g k (backtrackE g k 0
      { current := [], best := [], found := false, nodes := 0 }) :=
    backtrackE_good g hg k 0 _ ⟨by rfl, by intro h'; cases h'⟩
  exact hgood.2 h

/-! ## Greedy coloring solver, `k_clique_solver.cpp` -/

theorem exists_not_mem_finset (s : Finset Nat) : ∃ c, c ∉ s :=
  ⟨s.sup id + 1, fun hmem => by
    have h : id (s.sup id + 1) ≤ s.sup id := Finset.le_sup hmem
    simp only [id] at h
    omega⟩

/-- The `while (neighbor_colors[v].count(color)) color++;` scan: the smallest
natural number outside `s`. -/
def mex (s : Finset Nat) : Nat :=
  Nat.find (exists_not_mem_finset s)

theorem mex_not_mem (s : Finset Nat) : mex s ∉ s :=
  Nat.find_spec (exists_not_mem_finset s)

/-- The vertex processing order of `greedyColoring`: pairs `(degree, id)`
sorted descending (`sort(degree_nodes.rbegin(), degree_nodes.rend())`; the
keys are pairwise distinct, so the order is uniquely determined),
then projected to ids. -/
def degreeOrder (g : KGraph) : List Nat :=
  (((List.range g.n).map fun i => (g.degrees i, i)).mergeSort
    fun a b => decide (b.1 < a.1 ∨ (b.1 = a.1 ∧ b.2 ≤ a.2))).map (·.2)

theorem mem_degreeOrder (g : KGraph) (v : Nat) : v ∈ degreeOrder g ↔ v < g.n := by
  unfold degreeOrder
  rw [List.mem_map]
  constructor
  · rintro ⟨p, hp, rfl⟩
    rw [(List.mergeSort_perm _ _).mem_iff, List.mem_map] at hp
    obtain ⟨i, hi, rfl⟩ := hp
    simpa using List.mem_range.mp hi
  · intro hv
    refine ⟨(g.degrees v, v), ?_, rfl⟩
    rw [(List.mergeSort_perm _ _).mem_iff, List.mem_map]
    exact ⟨v, List.mem_range.mpr hv, rfl⟩

/-- The working state of `greedyColoring`: the color array (`-1` = uncolored)
and the per-vertex sets of colors already used by neighbors. -/
structure ColorState where
  colors : Nat → Int
  ncolors : Nat → Finset Nat

/-- One iteration of the coloring loop: give `v` the smallest color absent
from `neighbor_colors[v]` and record that color with every neighbor of `v`. -/
def colorStep (g : KGraph) (st : ColorState) (v : Nat) : ColorState :=
  let c := mex (st.ncolors v)
  { colors := fun w => if w = v then (c : Int) else st.colors w
    ncolors := fun u => if u ∈ g.adjList v then insert c (st.ncolors u) else st.ncolors u }

/-- `GreedyColoringSolver::greedyColoring`: all vertices processed in
descending-degree order starting from all-`-1` colors and empty neighbor-color
sets. -/
def greedyColoring (g : KGraph) : Nat → Int :=
  ((degreeOrder g).foldl (colorStep g)
    { colors := fun _ => -1, ncolors := fun _ => ∅ }).colors

/-- Invariant of the coloring pass: every assigned color is recorded in each
neighbor's used-color set, and assigned colors are proper so far. -/
def ColorInv (g : KGraph) (st : ColorState) : Prop :=
  (∀ w, 0 ≤ st.colors w → ∀ u, u ∈ g.adjList w → (st.colors w).toNat ∈ st.ncolors u) ∧
    (∀ w w', 0 ≤ st.colors w → 0 ≤ st.colors w' → g.adjMat w w' = true → w ≠ w' →
      st.colors w ≠ st.colors w')

theorem colorStep_inv {g : KGraph} (hg : g.Wf) {st : ColorState} (hst : ColorInv g st)
    (v : Nat) : ColorInv g (colorStep g st v) := by
  obtain ⟨hrec, hprop⟩ := hst
  constructor
  · intro w hw u hu
    simp only [colorStep] at hw ⊢
    by_cases hwv : w = v
    · subst hwv
      rw [if_pos rfl]
      rw [if_pos hu]
      simp
    · rw [if_neg hwv] at hw ⊢
      split
      · exact Finset.mem_insert_of_mem (hrec w hw u hu)
      · exact hrec w hw u hu
  · intro w w' hw hw' hadj hne
    simp only [colorStep] at hw hw' ⊢
    by_cases hwv : w = v
    · subst hwv
      rw [if_pos rfl] at hw ⊢
      rw [if_neg (fun h => hne h.symm)] at hw' ⊢
      have hv_mem : w ∈ g.adjList w' := by
        rw [hg.mem_adjList, hg.symm]
        exact hadj
      have hmem : (st.colors w').toNat ∈ st.ncolors w := hrec w' hw' w hv_mem
      intro hcontra
      apply mex_not_mem (st.ncolors w)
      have heq : (st.colors w').toNat = mex (st.ncolors w) := by omega
      rw [← heq]
      exact hmem
    · rw [if_neg hwv] at hw ⊢
      by_cases hw'v : w' = v
      · subst hw'v
        rw [if_pos rfl] at hw' ⊢
        have hv_mem : w' ∈ g.adjList w := by
          rw [hg.mem_adjList]
          exact hadj
        have hmem : (st.colors w).toNat ∈ st.ncolors w' := hrec w hw w' hv_mem
        intro hcontra
        apply mex_not_mem (st.ncolors w')
        have heq : (st.colors w).toNat = mex (st.ncolors w') := by omega
        rw [← heq]
        exact hmem
      · rw [if_neg hw'v] at hw' ⊢
        exact hprop w w' hw hw' hadj hne

theorem foldl_colorStep_inv {g : KGraph} (hg : g.Wf) :
    ∀ (L : List Nat) (st : ColorState), ColorInv g st →
      ColorInv g (L.foldl (colorStep g) st) := by
  intro L
  induction L with
  | nil => intro st hst; exact hst
  | cons v L ih => intro st hst; exact ih _ (colorStep_inv hg hst v)

theorem foldl_colorStep_nonneg_mono {g : KGraph} :
    ∀ (L : List Nat) (st : ColorState) (w : Nat), 0 ≤ st.colors w →
      0 ≤ (L.foldl (colorStep g) st).colors w := by
  intro L
  induction L with
  | nil => intro st w h; exact h
  | cons v L ih =>
    intro st w h
    refine ih _ w ?_
    simp only [colorStep]
    split
    · exact Int.natCast_nonneg _
    · exact h

theorem foldl_colorStep_nonneg_mem {g : KGraph} :
    ∀ (L : List Nat) (st : ColorState) (w : Nat), w ∈ L →
      0 ≤ (L.foldl (colorStep g) st).colors w := by
  intro L
  induction L with
  | nil => intro st w h; cases h
  | cons v L ih =>
    intro st w h
    rcases List.mem_cons.mp h with rfl | h
    · refine foldl_colorStep_nonneg_mono L _ w ?_
      simp only [colorStep, if_pos rfl]
      exact Int.natCast_nonneg _
    · exact ih _ w h

/-- The greedy coloring is proper: every vertex of the graph gets a
non-negative color, and adjacent vertices get different colors. -/
theorem greedyColoring_proper (g : KGraph) (hg : g.Wf) :
    (∀ v, v < g.n → 0 ≤ greedyColoring g v) ∧
      (∀ u v, g.adjMat u v = true → greedyColoring g u ≠ greedyColoring g v) := by
  have hinv : ColorInv g ((degreeOrder g).foldl (colorStep g)
      { colors := fun _ => -1, ncolors := fun _ => ∅ }) := by
    refine foldl_colorStep_inv hg _ _ ⟨?_, ?_⟩
    · intro w hw; simp at hw
    · intro w w' hw; simp at hw
  constructor
  · intro v hv
    exact foldl_colorStep_nonneg_mem _ _ v ((mem_degreeOrder g v).mpr hv)
  · intro u v hadj
    have hu : u < g.n := (hg.bounded u v hadj).1
    have hv : v < g.n := (hg.bounded u v hadj).2
    have hne : u ≠ v := by
      intro h
      subst h
      rw [hg.loopless] at hadj
      cases hadj
    exact hinv.2 u v
      (foldl_colorStep_nonneg_mem _ _ u ((mem_degreeOrder g u).mpr hu))
      (foldl_colorStep_nonneg_mem _ _ v ((mem_degreeOrder g v).mpr hv))
      hadj hne

/-- The `connections` count in `buildCliqueFromSubset`: neighbors of `v`
among the candidate list (excluding `v` itself). -/
def connCount (g : KGraph) (cands : List Nat) (v : Nat) : Nat :=
  (cands.filter fun u => decide (v ≠ u) && g.adjMat v u).length

/-- The arg-max scan of `buildCliqueFromSubset`: fold over the candidates with
`(best_node, max_connections)` starting from `(-1, -1)`, updating on a strict
improvement. -/
def pickBest (g : KGraph) (cands : List Nat) : Int × Int :=
  cands.foldl
    (fun acc v =>
      let conn : Int := connCount g cands v
      if conn > acc.2 then ((v : Int), conn) else acc)
    (-1, -1)

theorem foldl_pickBest_cases (g : KGraph) (full : List Nat) :
    ∀ (l : List Nat) (acc : Int × Int),
      (l.foldl
        (fun acc v =>
          let conn : Int := connCount g full v
          if conn > acc.2 then ((v : Int), conn) else acc) acc).1 = acc.1 ∨
      ∃ v ∈ l, (l.foldl
        (fun acc v =>
          let conn : Int := connCount g full v
          if conn > acc.2 then ((v : Int), conn) else acc) acc).1 = (v : Int) := by
  intro l
  induction l with
  | nil => intro acc; exact Or.inl rfl
  | cons x xs ih =>
    intro acc
    simp only [List.foldl_cons]
    rcases ih (if (connCount g full x : Int) > acc.2 then ((x : Int), _) else acc) with
      h | ⟨v, hv, h⟩
    · rw [h]
      split
      · exact Or.inr ⟨x, List.mem_cons_self x xs, rfl⟩
      · exact Or.inl rfl
    · exact Or.inr ⟨v, List.mem_cons_of_mem x hv, h⟩

theorem pickBest_mem (g : KGraph) (cands : List Nat)
    (h : (pickBest g cands).1 ≠ -1) : (pickBest g cands).1.toNat ∈ cands := by
  rcases foldl_pickBest_cases g cands cands (-1, -1) with h' | ⟨v, hv, h'⟩
  · exact absurd h' h
  · have hv' : ((v : Int)).toNat = v := by omega
    unfold pickBest
    rw [h', hv']
    exact hv

theorem length_filter_lt {α : Type} (p : α → Bool) (l : List α) (a : α)
    (ha : a ∈ l) (hpa : p a = false) : (l.filter p).length < l.length := by
  induction l with
  | nil => cases ha
  | cons x xs ih =>
    rcases List.mem_cons.mp ha with rfl | ha
    · rw [List.filter_cons, hpa, if_neg Bool.false_ne_true]
      exact Nat.lt_succ_of_le (List.length_filter_le p xs)
    · rw [List.filter_cons]
      split
      · simpa using Nat.succ_lt_succ (ih ha)
      · exact Nat.lt_succ_of_lt (ih ha)

/-- `GreedyColoringSolver::buildCliqueFromSubset`: while candidates remain and
the clique is below size `k`, pick the candidate with the most connections to
the other candidates (first strict maximum), append it, and keep only the
remaining candidates adjacent to it. -/
def buildClique (g : KGraph) (k : Int) (cands : List Nat) (clique : List Nat) :
    List Nat :=
  if hloop : cands ≠ [] ∧ (clique.length : Int) < k then
    if hpb : (pickBest g cands).1 = -1 then clique
    else
      buildClique g k
        (cands.filter fun v =>
          decide (v ≠ (pickBest g cands).1.toNat) &&
            g.adjMat (pickBest g cands).1.toNat v)
        (clique ++ [(pickBest g cands).1.toNat])
  else clique
termination_by cands.length
decreasing_by
  simp_wf
  exact length_filter_lt _ cands (pickBest g cands).1.toNat
    (pickBest_mem g cands hpb) (by simp)

theorem buildClique_length_aux (g : KGraph) (k : Int) :
    ∀ (m : Nat) (cands : List Nat), cands.length ≤ m → ∀ clique : List Nat,
      ((buildClique g k cands clique).length : Int) ≤ max (clique.length : Int) k := by
  intro m
  induction m with
  | zero =>
    intro cands hm clique
    have hnil : cands = [] := List.eq_nil_of_length_eq_zero (by omega)
    subst hnil
    rw [buildClique, dif_neg (by simp)]
    exact le_max_left _ _
  | succ m ih =>
    intro cands hm clique
    rw [buildClique]
    split
    · rename_i hloop
      split
      · exact le_max_left _ _
      · rename_i hpb
        have hlt := length_filter_lt
          (fun v => decide (v ≠ (pickBest g cands).1.toNat) &&
            g.adjMat (pickBest g cands).1.toNat v) cands
          (pickBest g cands).1.toNat (pickBest_mem g cands hpb) (by simp)
        have hrec := ih (cands.filter fun v =>
            decide (v ≠ (pickBest g cands).1.toNat) &&
              g.adjMat (pickBest g cands).1.toNat v) (by omega)
          (clique ++ [(pickBest g cands).1.toNat])
        refine le_trans hrec ?_
        rw [max_le_iff]
        refine ⟨?_, le_max_right _ _⟩
        rw [le_max_iff]
        right
        simp only [List.length_append, List.length_singleton]
        push_cast
        omega
    · exact le_max_left _ _

theorem buildClique_length (g : KGraph) (k : Int) (cands clique : List Nat) :
    ((buildClique g k cands clique).length : Int) ≤ max (clique.length : Int) k :=
  buildClique_length_aux g k cands.length cands le_rfl clique

/-- The per-color candidate pools `map<int, vector<int>> color_classes`,
iterated in ascending key (color) order; each class lists its vertices in
ascending id order, as produced by the `for (int i = 0; i < n; i++)` fill. -/
def colorClasses (g : KGraph) : List (List Nat) :=
  (((List.range g.n).map (greedyColoring g)).toFinset.sort (· ≤ ·)).map
    fun c => (List.range g.n).filter fun i => decide (greedyColoring g i = c)

/-- `std::vector::resize(k)` on the best clique: for `k ≥ 0` truncate or
zero-pad to length `k`; for `k < 0` the argument converts to a huge `size_t`
and the call does not return normally (modelled as an error). -/
def vresize (l : List Nat) (k : Int) : Except Unit (List Nat) :=
  if k < 0 then .error ()
  else .ok (l.take k.toNat ++ List.replicate (k.toNat - l.length) 0)

/-- The attempt to densify one color class: `buildCliqueFromSubset(nodes)`
starting from the empty clique. -/
def densify (g : KGraph) (k : Int) (nodes : List Nat) : List Nat :=
  buildClique g k nodes []

/-- The `for (auto& [color, nodes] : color_classes)` loop of
`GreedyColoringSolver::solve`, including the success `break` (with the
`resize(k)`) and the keep-the-larger update. -/
def classLoop (g : KGraph) (k : Int) :
    List (List Nat) → List Nat → Except Unit (List Nat)
  | [], best => .ok best
  | nodes :: rest, best =>
    if (nodes.length : Int) ≥ k then
      if ((densify g k nodes).length : Int) ≥ k ∧ g.isCliqueB (densify g k nodes) = true then
        vresize (densify g k nodes) k
      else if (densify g k nodes).length > best.length then
        classLoop g k rest (densify g k nodes)
      else classLoop g k rest best
    else classLoop g k rest best

/-- The fallback ordering of `GreedyColoringSolver::solve`: all vertices
sorted by descending degree (`std::sort` leaves the order of equal-degree
vertices unspecified; we fix the stable outcome — no property proved below
depends on the tie order). -/
def fallbackOrder (g : KGraph) : List Nat :=
  (List.range g.n).mergeSort fun a b => decide (g.degrees b ≤ g.degrees a)

/-- The result fields of the greedy solver. -/
structure GreedyResult where
  clique : List Nat
  found : Bool
deriving DecidableEq

/-- The final value of `best_clique` in `GreedyColoringSolver::solve`: if the
class loop produced fewer than `k` vertices, rebuild from the full
degree-sorted vertex list. -/
def greedyBest2 (g : KGraph) (k : Int) (best : List Nat) : List Nat :=
  if (best.length : Int) < k then buildClique g k (fallbackOrder g) [] else best

/-- `GreedyColoringSolver::solve`: color, partition into color classes, try to
densify each sufficiently large class (first success wins, truncated to `k`),
fall back to densifying the full degree-sorted vertex list, then validate. -/
def greedySolve (g : KGraph) (k : Int) : Except Unit GreedyResult :=
  match classLoop g k (colorClasses g) [] with
  | .error e => .error e
  | .ok best =>
    .ok { clique := greedyBest2 g k best
          found := decide (((greedyBest2 g k best).length : Int) ≥ k) &&
            g.isCliqueB (greedyBest2 g k best) }

theorem vresize_ok_length {l : List Nat} {k : Int} {l' : List Nat}
    (h : vresize l k = .ok l') : l'.length = k.toNat := by
  unfold vresize at h
  split at h
  · cases h
  · cases h
    simp only [List.length_append, List.length_take, List.length_replicate]
    omega

theorem classLoop_ok_length (g : KGraph) (k : Int) (hk : 0 ≤ k) :
    ∀ (classes : List (List Nat)) (best : List Nat) (best' : List Nat),
      best.length ≤ k.toNat → classLoop g k classes best = .ok best' →
      best'.length ≤ k.toNat := by
  intro classes
  induction classes with
  | nil =>
    intro best best' hb h
    cases h
    exact hb
  | cons c rest ih =>
    intro best best' hb h
    rw [classLoop] at h
    split at h
    · split at h
      · have h' := vresize_ok_length h
        omega
      · split at h
        · refine ih _ _ ?_ h
          have hbc := buildClique_length g k c []
          simp only [List.length_nil] at hbc
          unfold densify
          omega
        · exact ih _ _ hb h
    · exact ih _ _ hb h

/-- On success the greedy solver's answer is a clique of size exactly `k`
(its `found` flag revalidates both conditions, and no code path can produce a
clique longer than `k`). -/
theorem greedySolve_found (g : KGraph) (k : Int) (hk : 1 ≤ k) (r : GreedyResult)
    (hr : greedySolve g k = .ok r) (hf : r.found = true) :
    g.isCliqueB r.clique = true ∧ (r.clique.length : Int) = k := by
  unfold greedySolve at hr
  split at hr
  · cases hr
  · rename_i best hloop
    rw [Except.ok.injEq] at hr
    subst hr
    simp only [Bool.and_eq_true, decide_eq_true_eq] at hf
    refine ⟨hf.2, ?_⟩
    have hb : (greedyBest2 g k best).length ≤ k.toNat := by
      unfold greedyBest2
      split
      · have hbc := buildClique_length g k (fallbackOrder g) []
        simp only [List.length_nil] at hbc
        omega
      · exact classLoop_ok_length g k (by omega) _ [] best (by simp) hloop
    have hge := hf.1
    simp only at hge hb ⊢
    omega

/-! ## Tabu search solver, `k_clique_solver.cpp` -/

/-- The start-vertex scan of `TabuSearchSolver::initialSolution`: first strict
maximum of `getDegree` over `0..n-1`, starting from
`(max_degree, start_node) = (-1, 0)`. -/
def startNode (g : KGraph) : Nat :=
  ((List.range g.n).foldl
    (fun acc i =>
      if (g.degrees i : Int) > acc.1 then ((g.degrees i : Int), i) else acc)
    (-1, 0)).2

/-- The greedy scan inside `initialSolution`: candidate with the most
connections to the current clique (first strict maximum), as
`(best, max_conn)` starting from `(-1, -1)`. -/
def pickConn (g : KGraph) (clique cands : List Nat) : Int × Int :=
  cands.foldl
    (fun acc v =>
      if ((clique.filter fun u => g.adjMat v u).length : Int) > acc.2 then
        ((v : Int), ((clique.filter fun u => g.adjMat v u).length : Int))
      else acc)
    (-1, -1)

theorem foldl_sel_cases (f : Int × Int → Nat → Int × Int)
    (hf : ∀ acc v, (f acc v).1 = acc.1 ∨ (f acc v).1 = (v : Int)) :
    ∀ (l : List Nat) (acc : Int × Int),
      (l.foldl f acc).1 = acc.1 ∨ ∃ v ∈ l, (l.foldl f acc).1 = (v : Int) := by
  intro l
  induction l with
  | nil => intro acc; exact Or.inl rfl
  | cons x xs ih =>
    intro acc
    simp only [List.foldl_cons]
    rcases ih (f acc x) with h | ⟨v, hv, h⟩
    · rcases hf acc x with h' | h'
      · exact Or.inl (h.trans h')
      · exact Or.inr ⟨x, List.mem_cons_self x xs, h.trans h'⟩
    · exact Or.inr ⟨v, List.mem_cons_of_mem x hv, h⟩

theorem pickConn_mem (g : KGraph) (clique cands : List Nat)
    (h : (pickConn g clique cands).1 ≠ -1) :
    (pickConn g clique cands).1.toNat ∈ cands := by
  have hcases := foldl_sel_cases
    (fun acc v =>
      if ((clique.filter fun u => g.adjMat v u).length : Int) > acc.2 then
        ((v : Int), ((clique.filter fun u => g.adjMat v u).length : Int))
      else acc)
    (fun acc v => by
      dsimp only
      split
      · exact Or.inr rfl
      · exact Or.inl rfl)
    cands (-1, -1)
  rcases hcases with h' | ⟨v, hv, h'⟩
  · exact absurd h' h
  · unfold pickConn
    rw [h']
    have hv' : ((v : Int)).toNat = v := by omega
    rw [hv']
    exact hv

/-- The `while` loop of `initialSolution`: while candidates remain and the
clique is below `k`, add the candidate most connected to the clique (breaking
when none exists or its connection count is below the clique size), then keep
only candidates adjacent to the whole grown clique. -/
def initLoop (g : KGraph) (k : Int) (cands clique : List Nat) : List Nat :=
  if hloop : cands ≠ [] ∧ (clique.length : Int) < k then
    if hpb : (pickConn g clique cands).1 = -1 ∨
        (pickConn g clique cands).2 < (clique.length : Int) then
      clique
    else
      initLoop g k
        (cands.filter fun v =>
          decide (v ≠ (pickConn g clique cands).1.toNat) &&
            g.adjMat (pickConn g clique cands).1.toNat v &&
            ((clique ++ [(pickConn g clique cands).1.toNat]).all fun u =>
              g.adjMat v u))
        (clique ++ [(pickConn g clique cands).1.toNat])
  else clique
termination_by cands.length
decreasing_by
  simp_wf
  exact length_filter_lt _ cands (pickConn g clique cands).1.toNat
    (pickConn_mem g clique cands (fun hc => hpb (Or.inl hc))) (by simp)

/-- `TabuSearchSolver::initialSolution`: start from the maximum-degree vertex
with its neighbor set as candidates, then grow greedily. -/
def initialSolution (g : KGraph) (k : Int) : List Nat :=
  initLoop g k (g.adjList (startNode g)) [startNode g]

/-- `TabuSearchSolver::findCandidates`: vertices outside the clique adjacent
to every clique member, in ascending id order. -/
def findCandidates (g : KGraph) (clique : List Nat) : List Nat :=
  (List.range g.n).filter fun v =>
    !clique.contains v && (clique.all fun u => g.adjMat v u)

/-- `tabu_list.count(v) && tabu_list[v] > iterations`. -/
def tabuBlocked (tabu : Nat → Option Nat) (v i : Nat) : Bool :=
  match tabu v with
  | some d => decide (i < d)
  | none => false

/-- The candidate-selection scan of `TabuSearchSolver::solve`: a tabu-blocked
candidate is skipped unless adding it would exceed the best size (aspiration);
among the rest, first strict maximum of whole-graph degree. -/
def selScan (g : KGraph) (curLen bestLen i : Nat) (tabu : Nat → Option Nat)
    (cands : List Nat) : Int × Int :=
  cands.foldl
    (fun acc v =>
      if tabuBlocked tabu v i = true ∧ curLen + 1 ≤ bestLen then acc
      else if (g.degrees v : Int) > acc.2 then ((v : Int), (g.degrees v : Int))
      else acc)
    (-1, -1)

/-- The state of one tabu run: `current_solution`, `best_solution`,
`tabu_list` and the iteration counter. -/
structure TabuState where
  current : List Nat
  best : List Nat
  tabu : Nat → Option Nat
  iter : Nat

/-- The growth branch of `solve`: select a candidate (if any survives the
tabu filter), append it, and update `best` when the grown clique is larger. -/
def tabuAddStep (g : KGraph) (s : TabuState) : TabuState :=
  if (selScan g s.current.length s.best.length (s.iter + 1) s.tabu
        (findCandidates g s.current)).1 = -1 then
    { s with iter := s.iter + 1 }
  else
    { current := s.current ++ [(selScan g s.current.length s.best.length (s.iter + 1)
        s.tabu (findCandidates g s.current)).1.toNat]
      best :=
        if s.current.length + 1 > s.best.length then
          s.current ++ [(selScan g s.current.length s.best.length (s.iter + 1)
            s.tabu (findCandidates g s.current)).1.toNat]
        else s.best
      tabu := s.tabu
      iter := s.iter + 1 }

/-- The removal branch of `solve`: erase the uniformly random position
`r % size` (oracle-supplied `r`), mark the removed vertex tabu until
`iterations + tenure`, and restart from `best` when the clique has shrunk to
under half of `best`'s size. -/
def tabuRemoveStep (tenure : Nat) (r : Nat) (s : TabuState) : TabuState :=
  { current :=
      if (s.current.eraseIdx (r % s.current.length)).length < s.best.length / 2 then
        s.best
      else s.current.eraseIdx (r % s.current.length)
    best := s.best
    tabu := fun w =>
      if w = s.current.getD (r % s.current.length) 0 then some (s.iter + 1 + tenure)
      else s.tabu w
    iter := s.iter + 1 }

/-- The `it->second <= iterations` expiry purge of the tabu map. -/
def purgeTabu (i : Nat) (tabu : Nat → Option Nat) : Nat → Option Nat :=
  fun v =>
    match tabu v with
    | some d => if d ≤ i then none else some d
    | none => none

/-- The `if (iterations % 100 == 0)` purge at the end of each loop body. -/
def tabuPurgePhase (s : TabuState) : TabuState :=
  if s.iter % 100 = 0 then { s with tabu := purgeTabu s.iter s.tabu } else s

/-- One full body of the `while` loop of `TabuSearchSolver::solve`. -/
def tabuStep (g : KGraph) (k : Int) (tenure : Nat) (rs : Nat → Nat)
    (s : TabuState) : TabuState :=
  tabuPurgePhase
    (if findCandidates g s.current ≠ [] then tabuAddStep g s
     else if s.current ≠ [] then tabuRemoveStep tenure (rs s.iter) s
     else { s with current := initialSolution g k, iter := s.iter + 1 })

/-- The `while (iterations < max_iterations && (int)best_solution.size() < k)`
loop, with the remaining iteration budget as fuel. -/
def tabuLoop (g : KGraph) (k : Int) (tenure : Nat) (rs : Nat → Nat) :
    Nat → TabuState → TabuState
  | 0, s => s
  | fuel + 1, s =>
    if (s.best.length : Int) < k then
      tabuLoop g k tenure rs fuel (tabuStep g k tenure rs s)
    else s

/-- The state at the end of a run of `TabuSearchSolver::solve`: initial
solution seeded as both `current` and `best`, empty tabu map, then the loop. -/
def tabuFinal (g : KGraph) (k : Int) (maxIter tenure : Nat) (rs : Nat → Nat) :
    TabuState :=
  tabuLoop g k tenure rs maxIter
    { current := initialSolution g k, best := initialSolution g k
      tabu := fun _ => none, iter := 0 }

/-- `TabuSearchSolver::solve`: the result is `best_solution`, validated for
size and cliqueness, with the iteration count reported in `nodes_explored`. -/
def tabuSolve (g : KGraph) (k : Int) (maxIter tenure : Nat) (rs : Nat → Nat) :
    SolutionResult :=
  { clique := (tabuFinal g k maxIter tenure rs).best
    found := decide (((tabuFinal g k maxIter tenure rs).best.length : Int) ≥ k) &&
      g.isCliqueB (tabuFinal g k maxIter tenure rs).best
    nodesExplored := (tabuFinal g k maxIter tenure rs).iter }

/-- The trace of loop-body applications from the start state of a run (the
real run follows this trace until its stopping condition fires). -/
def tabuTraj (g : KGraph) (k : Int) (tenure : Nat) (rs : Nat → Nat) :
    Nat → TabuState
  | 0 =>
    { current := initialSolution g k, best := initialSolution g k
      tabu := fun _ => none, iter := 0 }
  | n + 1 => tabuStep g k tenure rs (tabuTraj g k tenure rs n)

/-- Observation: the vertex removed by the step taken from trace state `n`
(iteration `n + 1`), if that step is a removal. -/
def removedVertexAt (g : KGraph) (k : Int) (tenure : Nat) (rs : Nat → Nat)
    (n : Nat) : Option Nat :=
  if findCandidates g (tabuTraj g k tenure rs n).current = [] ∧
      (tabuTraj g k tenure rs n).current ≠ [] then
    some ((tabuTraj g k tenure rs n).current.getD
      (rs (tabuTraj g k tenure rs n).iter % (tabuTraj g k tenure rs n).current.length) 0)
  else none

/-- Observation: the vertex appended to `current` by the step taken from trace
state `n` (iteration `n + 1`), if that step adds one. -/
def addedVertexAt (g : KGraph) (k : Int) (tenure : Nat) (rs : Nat → Nat)
    (n : Nat) : Option Nat :=
  if findCandidates g (tabuTraj g k tenure rs n).current ≠ [] ∧
      (selScan g (tabuTraj g k tenure rs n).current.length
        (tabuTraj g k tenure rs n).best.length ((tabuTraj g k tenure rs n).iter + 1)
        (tabuTraj g k tenure rs n).tabu
        (findCandidates g (tabuTraj g k tenure rs n).current)).1 ≠ -1 then
    some ((selScan g (tabuTraj g k tenure rs n).current.length
      (tabuTraj g k tenure rs n).best.length ((tabuTraj g k tenure rs n).iter + 1)
      (tabuTraj g k tenure rs n).tabu
      (findCandidates g (tabuTraj g k tenure rs n).current)).1.toNat)
  else none

theorem tabuPurgePhase_iter (s : TabuState) : (tabuPurgePhase s).iter = s.iter := by
  unfold tabuPurgePhase
  split <;> rfl

theorem tabuPurgePhase_current (s : TabuState) :
    (tabuPurgePhase s).current = s.current := by
  unfold tabuPurgePhase
  split <;> rfl

theorem tabuPurgePhase_best (s : TabuState) : (tabuPurgePhase s).best = s.best := by
  unfold tabuPurgePhase
  split <;> rfl

theorem tabuStep_iter (g : KGraph) (k : Int) (tenure : Nat) (rs : Nat → Nat)
    (s : TabuState) : (tabuStep g k tenure rs s).iter = s.iter + 1 := by
  unfold tabuStep
  rw [tabuPurgePhase_iter]
  split
  · unfold tabuAddStep
    split <;> rfl
  · split
    · rfl
    · rfl

theorem tabuTraj_iter (g : KGraph) (k : Int) (tenure : Nat) (rs : Nat → Nat) :
    ∀ n, (tabuTraj g k tenure rs n).iter = n := by
  intro n
  induction n with
  | zero => rfl
  | succ n ih =>
    show (tabuStep g k tenure rs (tabuTraj g k tenure rs n)).iter = n + 1
    rw [tabuStep_iter, ih]

theorem selScan_aux (g : KGraph) (curLen bestLen i : Nat) (tabu : Nat → Option Nat) :
    ∀ (cands : List Nat) (acc : Int × Int),
      (cands.foldl
        (fun acc v =>
          if tabuBlocked tabu v i = true ∧ curLen + 1 ≤ bestLen then acc
          else if (g.degrees v : Int) > acc.2 then ((v : Int), (g.degrees v : Int))
          else acc) acc).1 = acc.1 ∨
      ∃ v ∈ cands, ¬(tabuBlocked tabu v i = true ∧ curLen + 1 ≤ bestLen) ∧
        (cands.foldl
          (fun acc v =>
            if tabuBlocked tabu v i = true ∧ curLen + 1 ≤ bestLen then acc
            else if (g.degrees v : Int) > acc.2 then ((v : Int), (g.degrees v : Int))
            else acc) acc).1 = (v : Int) := by
  intro cands
  induction cands with
  | nil => intro acc; exact Or.inl rfl
  | cons x xs ih =>
    intro acc
    simp only [List.foldl_cons]
    rcases ih _ with h | ⟨v, hv, hnb, h⟩
    · by_cases hskip : tabuBlocked tabu x i = true ∧ curLen + 1 ≤ bestLen
      · left
        rw [h, if_pos hskip]
      · by_cases hupd : (g.degrees x : Int) > acc.2
        · right
          exact ⟨x, List.mem_cons_self x xs, hskip, by rw [h, if_neg hskip, if_pos hupd]⟩
        · left
          rw [h, if_neg hskip, if_neg hupd]
    · exact Or.inr ⟨v, List.mem_cons_of_mem x hv, hnb, h⟩

/-- A vertex actually selected by the candidate scan was not skipped: either it
was not tabu-active, or the aspiration condition (`current + 1 > best`) held. -/
theorem selScan_pick (g : KGraph) (curLen bestLen i : Nat) (tabu : Nat → Option Nat)
    (cands : List Nat) (v : Nat)
    (h : (selScan g curLen bestLen i tabu cands).1 = (v : Int)) :
    ¬(tabuBlocked tabu v i = true ∧ curLen + 1 ≤ bestLen) := by
  rcases selScan_aux g curLen bestLen i tabu cands (-1, -1) with h' | ⟨w, hw, hnb, h'⟩
  · unfold selScan at h
    rw [h] at h'
    omega
  · unfold selScan at h
    rw [h] at h'
    have : v = w := by omega
    subst this
    exact hnb

theorem purgeTabu_some {tabu : Nat → Option Nat} {v d : Nat} (h : tabu v = some d)
    (i : Nat) : purgeTabu i tabu v = if d ≤ i then none else some d := by
  unfold purgeTabu
  rw [h]

theorem tabuPurgePhase_entry (s : TabuState) (v B : Nat)
    (hP : (∃ d, s.tabu v = some d ∧ B ≤ d) ∨ B ≤ s.iter) :
    (∃ d, (tabuPurgePhase s).tabu v = some d ∧ B ≤ d) ∨ B ≤ (tabuPurgePhase s).iter := by
  rw [tabuPurgePhase_iter]
  unfold tabuPurgePhase
  split
  · rcases hP with ⟨d, hd, hBd⟩ | hB
    · simp only [purgeTabu, hd]
      split
      · right
        omega
      · exact Or.inl ⟨d, rfl, hBd⟩
    · exact Or.inr hB
  · exact hP

/-- One loop body preserves the tenure lower bound on a vertex's tabu entry. -/
theorem tabu_entry_step (g : KGraph) (k : Int) (tenure : Nat) (rs : Nat → Nat)
    (s : TabuState) (v B : Nat) (hB : B ≤ s.iter + 1 + tenure)
    (hP : (∃ d, s.tabu v = some d ∧ B ≤ d) ∨ B ≤ s.iter) :
    (∃ d, (tabuStep g k tenure rs s).tabu v = some d ∧ B ≤ d) ∨
      B ≤ (tabuStep g k tenure rs s).iter := by
  unfold tabuStep
  apply tabuPurgePhase_entry
  split
  · unfold tabuAddStep
    split
    · rcases hP with h | h
      · exact Or.inl h
      · exact Or.inr (by simp only; omega)
    · rcases hP with h | h
      · exact Or.inl h
      · exact Or.inr (by simp only; omega)
  · split
    · unfold tabuRemoveStep
      simp only
      split
      · exact Or.inl ⟨s.iter + 1 + tenure, rfl, hB⟩
      · rcases hP with h | h
        · exact Or.inl h
        · exact Or.inr (by omega)
    · rcases hP with h | h
      · exact Or.inl h
      · exact Or.inr (by simp only; omega)

/-- After a removal of `v` at iteration `a + 1`, every later trace state either
carries a tabu entry for `v` of value at least `a + 1 + tenure`, or that bound
has already expired relative to the iteration counter. -/
theorem tabu_entry_lower_bound (g : KGraph) (k : Int) (tenure : Nat) (rs : Nat → Nat)
    (a : Nat) (v : Nat) (hrem : removedVertexAt g k tenure rs a = some v) :
    ∀ n, a < n →
      (∃ d, (tabuTraj g k tenure rs n).tabu v = some d ∧ a + 1 + tenure ≤ d) ∨
        a + 1 + tenure ≤ n := by
  intro n
  induction n with
  | zero => intro h; omega
  | succ n ih =>
    intro h
    have hiter : (tabuTraj g k tenure rs n).iter = n := tabuTraj_iter g k tenure rs n
    rcases Nat.lt_or_ge a n with han | han
    · have hstep := tabu_entry_step g k tenure rs (tabuTraj g k tenure rs n) v
        (a + 1 + tenure) (by omega) (by rw [hiter]; exact ih han)
      rw [tabuStep_iter, hiter] at hstep
      exact hstep
    · have hna : n = a := by omega
      subst hna
      unfold removedVertexAt at hrem
      split at hrem
      · rename_i hcond
        injection hrem with hv
        have htabu : (tabuRemoveStep tenure (rs (tabuTraj g k tenure rs n).iter)
            (tabuTraj g k tenure rs n)).tabu v = some (n + 1 + tenure) := by
          show (if v = (tabuTraj g k tenure rs n).current.getD
              (rs (tabuTraj g k tenure rs n).iter %
                (tabuTraj g k tenure rs n).current.length) 0
            then some ((tabuTraj g k tenure rs n).iter + 1 + tenure)
            else (tabuTraj g k tenure rs n).tabu v) = some (n + 1 + tenure)
          rw [if_pos hv.symm, hiter]
        have hiter' : (tabuRemoveStep tenure (rs (tabuTraj g k tenure rs n).iter)
            (tabuTraj g k tenure rs n)).iter = n + 1 := by
          show (tabuTraj g k tenure rs n).iter + 1 = n + 1
          omega
        have hstep : (∃ d, (tabuPurgePhase (tabuRemoveStep tenure
            (rs (tabuTraj g k tenure rs n).iter) (tabuTraj g k tenure rs n))).tabu v =
            some d ∧ n + 1 + tenure ≤ d) ∨ n + 1 + tenure ≤ n + 1 := by
          unfold tabuPurgePhase
          split
          · rw [show ({ tabuRemoveStep tenure (rs (tabuTraj g k tenure rs n).iter)
                (tabuTraj g k tenure rs n) with
                tabu := purgeTabu (tabuRemoveStep tenure
                  (rs (tabuTraj g k tenure rs n).iter) (tabuTraj g k tenure rs n)).iter
                  (tabuRemoveStep tenure (rs (tabuTraj g k tenure rs n).iter)
                    (tabuTraj g k tenure rs n)).tabu } : TabuState).tabu =
              purgeTabu (tabuRemoveStep tenure (rs (tabuTraj g k tenure rs n).iter)
                (tabuTraj g k tenure rs n)).iter
                (tabuRemoveStep tenure (rs (tabuTraj g k tenure rs n).iter)
                  (tabuTraj g k tenure rs n)).tabu from rfl,
              hiter', purgeTabu_some htabu]
            split
            · right
              omega
            · left
              exact ⟨n + 1 + tenure, rfl, le_refl _⟩
          · left
            exact ⟨n + 1 + tenure, htabu, le_refl _⟩
        show (∃ d, (tabuStep g k tenure rs (tabuTraj g k tenure rs n)).tabu v = some d ∧
          n + 1 + tenure ≤ d) ∨ n + 1 + tenure ≤ n + 1
        unfold tabuStep
        rw [if_neg (fun hcand => hcand hcond.1), if_pos hcond.2]
        exact hstep
      · cases hrem

/-- The tabu-tenure discipline: if `v` is removed at iteration `a + 1` and the
step at iteration `b + 1` lies strictly inside the tenure window, then unless
the aspiration condition holds there (adding would make `current` strictly
larger than `best`), `v` is not the vertex added at iteration `b + 1`. -/
theorem tabu_tenure_step (g : KGraph) (k : Int) (tenure : Nat) (rs : Nat → Nat)
    (a b v : Nat) (hab : a < b) (hwin : b + 1 < a + 1 + tenure)
    (hrem : removedVertexAt g k tenure rs a = some v)
    (hnoasp : ¬((tabuTraj g k tenure rs b).current.length + 1 >
      (tabuTraj g k tenure rs b).best.length)) :
    addedVertexAt g k tenure rs b ≠ some v := by
  intro hadd
  unfold addedVertexAt at hadd
  split at hadd
  · rename_i hcond
    injection hadd with hv
    have hiter : (tabuTraj g k tenure rs b).iter = b := tabuTraj_iter g k tenure rs b
    rcases selScan_aux g (tabuTraj g k tenure rs b).current.length
        (tabuTraj g k tenure rs b).best.length ((tabuTraj g k tenure rs b).iter + 1)
        (tabuTraj g k tenure rs b).tabu
        (findCandidates g (tabuTraj g k tenure rs b).current) (-1, -1) with
      h' | ⟨w, hw, hnb, h'⟩
    · exact hcond.2 h'
    · have hvw : v = w := by
        have := hcond.2
        rw [show (selScan g (tabuTraj g k tenure rs b).current.length
          (tabuTraj g k tenure rs b).best.length ((tabuTraj g k tenure rs b).iter + 1)
          (tabuTraj g k tenure rs b).tabu
          (findCandidates g (tabuTraj g k tenure rs b).current)) =
          ((findCandidates g (tabuTraj g k tenure rs b).current).foldl _ (-1, -1))
          from rfl] at hv
        omega
      subst hvw
      apply hnb
      refine ⟨?_, by omega⟩
      rcases tabu_entry_lower_bound g k tenure rs a v hrem b hab with
        ⟨d, hd, hBd⟩ | hexp
      · unfold tabuBlocked
        rw [hd, hiter]
        simp only [decide_eq_true_eq]
        omega
      · omega
  · cases hadd

/-- The removal branch outcome: after erasing the chosen vertex, `current` is
reset to `best` exactly when it has shrunk below half of `best`'s size
(integer division), and is the shrunken list otherwise. -/
theorem tabuStep_removal (g : KGraph) (k : Int) (tenure : Nat) (rs : Nat → Nat)
    (s : TabuState) (hc : findCandidates g s.current = []) (hne : s.current ≠ []) :
    (tabuStep g k tenure rs s).current =
      if (s.current.eraseIdx (rs s.iter % s.current.length)).length <
          s.best.length / 2 then s.best
      else s.current.eraseIdx (rs s.iter % s.current.length) := by
  unfold tabuStep
  rw [tabuPurgePhase_current]
  rw [if_neg (fun hcand => hcand hc), if_pos hne]
  rfl

/-- The tabu solver's `found` flag certifies its own result: it is the
conjunction of the size check and the clique check on `best_solution`. -/
theorem tabuSolve_found (g : KGraph) (k : Int) (maxIter tenure : Nat)
    (rs : Nat → Nat) (h : (tabuSolve g k maxIter tenure rs).found = true) :
    g.isCliqueB (tabuSolve g k maxIter tenure rs).clique = true ∧
      ((tabuSolve g k maxIter tenure rs).clique.length : Int) ≥ k := by
  unfold tabuSolve at h ⊢
  simp only [Bool.and_eq_true, decide_eq_true_eq] at h
  exact ⟨h.2, h.1⟩

theorem tabuLoop_no_run (g : KGraph) (k : Int) (tenure : Nat) (rs : Nat → Nat)
    (fuel : Nat) (s : TabuState) (h : ¬((s.best.length : Int) < k)) :
    tabuLoop g k tenure rs fuel s = s := by
  cases fuel with
  | zero => rfl
  | succ fuel =>
    unfold tabuLoop
    rw [if_neg h]

theorem initialSolution_k0 (g : KGraph) : initialSolution g 0 = [startNode g] := by
  unfold initialSolution
  rw [initLoop, dif_neg (fun hc => absurd hc.2 (by norm_num))]

theorem tabuFinal_k0 (g : KGraph) (maxIter tenure : Nat) (rs : Nat → Nat) :
    (tabuFinal g 0 maxIter tenure rs).best = [startNode g] := by
  unfold tabuFinal
  rw [tabuLoop_no_run g 0 tenure rs maxIter _
    (by rw [initialSolution_k0]; norm_num)]
  exact initialSolution_k0 g

/-! ## `src/maximum_clique.cpp`: Graph, ExactBacktracking, BranchAndBound -/

/-- `v.push_back(x)` on the row `i` of a vector-of-vectors. -/
def pushAt (f : Nat → List Nat) (i x : Nat) : Nat → List Nat :=
  fun a => if a = i then f a ++ [x] else f a

/-- `s.insert(x)` on the row `i` of a vector of sets. -/
def insertAt (f : Nat → Finset Nat) (i x : Nat) : Nat → Finset Nat :=
  fun a => if a = i then insert x (f a) else f a

/-- The `Graph` class of `src/maximum_clique.cpp`: adjacency vectors `adj`,
adjacency sets `adjSet` for O(1) queries, and the edge counter `m`. -/
structure MCGraph where
  n : Nat
  m : Nat
  adj : Nat → List Nat
  adjSet : Nat → Finset Nat

/-- `Graph::addEdge` of `src/maximum_clique.cpp`: no validation of any kind —
always appends to both adjacency vectors, inserts into both adjacency sets,
and bumps `m`. -/
def MCGraph.addEdge (g : MCGraph) (u v : Nat) : MCGraph :=
  { n := g.n
    m := g.m + 1
    adj := pushAt (pushAt g.adj u v) v u
    adjSet := insertAt (insertAt g.adjSet u v) v u }

/-- `Graph::areAdjacent`: `adjSet[u].count(v) > 0`. -/
def MCGraph.areAdjacent (g : MCGraph) (u v : Nat) : Bool :=
  decide (v ∈ g.adjSet u)

/-- `Graph::getDegree`: `adj[u].size()` (duplicates included). -/
def MCGraph.getDegree (g : MCGraph) (u : Nat) : Nat :=
  (g.adj u).length

/-- A freshly constructed `Graph(n)`. -/
def MCGraph.empty (n : Nat) : MCGraph :=
  { n := n, m := 0, adj := fun _ => [], adjSet := fun _ => ∅ }

/-- Building a `maximum_clique.cpp` graph from an edge list, as `main` does. -/
def mkMC (n : Nat) (es : List (Nat × Nat)) : MCGraph :=
  es.foldl (fun g e => g.addEdge e.1 e.2) (MCGraph.empty n)

/-- The brute-force oracle. Modelled from the spec: an "independent
brute-force enumeration over all subsets" of the vertex range, returning the
size of a largest subset that is pairwise adjacent (no such enumeration exists
under `src/`; the spec uses it as the test oracle the exact solvers are
checked against). -/
def IsCliqueSet (adj : Nat → Nat → Bool) (s : Finset Nat) : Prop :=
  ∀ u ∈ s, ∀ v ∈ s, u ≠ v → adj u v = true

instance (adj : Nat → Nat → Bool) : DecidablePred (IsCliqueSet adj) := fun s => by
  unfold IsCliqueSet
  infer_instance

/-- Modelled from the spec: the maximum clique size by brute-force enumeration
of all subsets of `[0, n)`. -/
def cliqueNum (n : Nat) (adj : Nat → Nat → Bool) : Nat :=
  ((Finset.range n).powerset.filter (fun s => IsCliqueSet adj s)).sup Finset.card

theorem le_cliqueNum (n : Nat) (adj : Nat → Nat → Bool) (s : Finset Nat)
    (hs : s ⊆ Finset.range n) (hc : IsCliqueSet adj s) : s.card ≤ cliqueNum n adj :=
  Finset.le_sup (Finset.mem_filter.mpr ⟨Finset.mem_powerset.mpr hs, hc⟩)

theorem cliqueNum_le (n : Nat) (adj : Nat → Nat → Bool) (m : Nat)
    (h : ∀ s : Finset Nat, s ⊆ Finset.range n → IsCliqueSet adj s → s.card ≤ m) :
    cliqueNum n adj ≤ m :=
  Finset.sup_le fun s hs =>
    h s (Finset.mem_powerset.mp (Finset.mem_filter.mp hs).1)
      (Finset.mem_filter.mp hs).2

theorem pairwise_toFinset_clique (adj : Nat → Nat → Bool)
    (hsym : ∀ u v, adj u v = adj v u) (l : List Nat)
    (hp : l.Pairwise fun a b => adj a b = true) : IsCliqueSet adj l.toFinset := by
  intro u hu v hv hne
  rw [List.mem_toFinset] at hu hv
  exact hp.forall (fun a b hab => by rw [hsym]; exact hab) hu hv hne

theorem pairwise_nodup (adj : Nat → Nat → Bool) (hirr : ∀ v, adj v v = false)
    (l : List Nat) (hp : l.Pairwise fun a b => adj a b = true) : l.Nodup :=
  hp.imp fun {a b} hab heq => by
    subst heq
    rw [hirr] at hab
    cases hab

/-- The shared state of the optimization-form solvers: `currentClique` and
`bestClique`. -/
structure EBState where
  current : List Nat
  best : List Nat
deriving DecidableEq

mutual

/-- `ExactBacktracking::backtrack(start)`: update `bestClique` if the partial
clique improves on it, prune when even taking all remaining vertices
`start..n-1` cannot beat it, otherwise run the candidate loop. -/
def ebBacktrack (g : MCGraph) (start : Nat) (st : EBState) : EBState :=
  let st1 := if st.current.length > st.best.length then { st with best := st.current }
    else st
  if st1.current.length + (g.n - start) ≤ st1.best.length then st1
  else ebFor g start st1
termination_by 2 * (g.n + 1 - start) + 1
decreasing_by all_goals (simp_wf <;> omega)

/-- The `for (int u = start; u < n; u++)` loop of `backtrack`: if `u` is
adjacent to the whole partial clique, push it, recurse from `u + 1`, pop. -/
def ebFor (g : MCGraph) (u : Nat) (st : EBState) : EBState :=
  if h : u < g.n then
    if st.current.all fun v => g.areAdjacent u v then
      let st1 := ebBacktrack g (u + 1) { st with current := st.current ++ [u] }
      ebFor g (u + 1) { st1 with current := st1.current.dropLast }
    else ebFor g (u + 1) st
  else st
termination_by 2 * (g.n + 1 - u)
decreasing_by all_goals (simp_wf <;> omega)

end

/-- `ExactBacktracking::findMaxClique`. -/
def findMaxCliqueEB (g : MCGraph) : List Nat :=
  (ebBacktrack g 0 { current := [], best := [] }).best

theorem ebFor_current (g : MCGraph) :
    ∀ m u st, g.n + 1 - u ≤ m → (ebFor g u st).current = st.current := by
  intro m
  induction m with
  | zero =>
    intro u st h
    rw [ebFor, dif_neg (by omega)]
  | succ m ih =>
    intro u st h
    rw [ebFor]
    split
    · rename_i hu
      split
      · have hrec : (ebBacktrack g (u + 1)
            { st with current := st.current ++ [u] }).current = st.current ++ [u] := by
          rw [ebBacktrack]
          split <;> split
          · rfl
          · exact ih (u + 1) _ (by omega)
          · rfl
          · exact ih (u + 1) _ (by omega)
        rw [ih (u + 1) _ (by omega), hrec, List.dropLast_concat]
      · exact ih (u + 1) st (by omega)
    · rfl

theorem ebBacktrack_current (g : MCGraph) (start : Nat) (st : EBState) :
    (ebBacktrack g start st).current = st.current := by
  rw [ebBacktrack]
  split <;> split
  · rfl
  · exact ebFor_current g (g.n + 1 - start) start _ le_rfl
  · rfl
  · exact ebFor_current g (g.n + 1 - start) start _ le_rfl

theorem ebFor_best_mono (g : MCGraph) :
    ∀ m u st, g.n + 1 - u ≤ m → st.best.length ≤ (ebFor g u st).best.length := by
  intro m
  induction m with
  | zero =>
    intro u st h
    rw [ebFor, dif_neg (by omega)]
  | succ m ih =>
    intro u st h
    rw [ebFor]
    split
    · rename_i hu
      split
      · have hrec : st.best.length ≤ (ebBacktrack g (u + 1)
            { st with current := st.current ++ [u] }).best.length := by
          rw [ebBacktrack]
          split <;> split
          · rename_i hcmp hprune
            have hcmp' : (st.current ++ [u]).length > st.best.length := hcmp
            show st.best.length ≤ (st.current ++ [u]).length
            omega
          · rename_i hcmp hprune
            have hcmp' : (st.current ++ [u]).length > st.best.length := hcmp
            refine le_trans ?_ (ih (u + 1) _ (by omega))
            show st.best.length ≤ (st.current ++ [u]).length
            omega
          · exact le_refl _
          · refine le_trans ?_ (ih (u + 1) _ (by omega))
            exact le_refl _
        refine le_trans hrec ?_
        exact ih (u + 1)
          { ebBacktrack g (u + 1) { st with current := st.current ++ [u] } with
            current := (ebBacktrack g (u + 1)
              { st with current := st.current ++ [u] }).current.dropLast }
          (by omega)
      · exact ih (u + 1) st (by omega)
    · exact le_refl _

theorem ebBacktrack_best_mono (g : MCGraph) (start : Nat) (st : EBState) :
    st.best.length ≤ (ebBacktrack g start st).best.length := by
  rw [ebBacktrack]
  split <;> split
  · rename_i hcmp hprune
    exact Nat.le_of_lt hcmp
  · rename_i hcmp hprune
    refine le_trans (Nat.le_of_lt hcmp) ?_
    exact ebFor_best_mono g (g.n + 1 - start) start { st with best := st.current } le_rfl
  · exact le_refl _
  · exact ebFor_best_mono g (g.n + 1 - start) start st le_rfl

theorem ebFor_complete (g : MCGraph) :
    ∀ m u st, g.n + 1 - u ≤ m →
      st.current.length ≤ st.best.length →
      ∀ E : Finset Nat, E ⊆ Finset.Ico u g.n →
        (∀ a ∈ E, ∀ b ∈ st.current, g.areAdjacent a b = true) →
        IsCliqueSet (fun a b => g.areAdjacent a b) E →
        st.current.length + E.card ≤ (ebFor g u st).best.length := by
  intro m
  induction m with
  | zero =>
    intro u st hm hcb E hE hcompat hclq
    rw [ebFor, dif_neg (by omega)]
    have hEe : E = ∅ := Finset.subset_empty.mp (by
      rw [Finset.Ico_eq_empty (by omega)] at hE
      exact hE)
    subst hEe
    simpa using hcb
  | succ m ih =>
    intro u st hm hcb E hE hcompat hclq
    rw [ebFor]
    split
    · rename_i hu
      split
      · rename_i hall
        by_cases huE : u ∈ E
        · have hback : (st.current.length + 1) + (E.erase u).card ≤
              (ebBacktrack g (u + 1) { st with current := st.current ++ [u] }).best.length := by
            have hE' : E.erase u ⊆ Finset.Ico (u + 1) g.n := by
              intro a ha
              have hane := Finset.ne_of_mem_erase ha
              have haE := Finset.mem_of_mem_erase ha
              have := Finset.mem_Ico.mp (hE haE)
              rw [Finset.mem_Ico]
              omega
            have hcompat' : ∀ a ∈ E.erase u, ∀ b ∈ st.current ++ [u],
                g.areAdjacent a b = true := by
              intro a ha b hb
              rcases List.mem_append.mp hb with hb | hb
              · exact hcompat a (Finset.mem_of_mem_erase ha) b hb
              · rw [List.mem_singleton] at hb
                subst hb
                exact hclq a (Finset.mem_of_mem_erase ha) b huE
                  (Finset.ne_of_mem_erase ha)
            have hclq' : IsCliqueSet (fun a b => g.areAdjacent a b) (E.erase u) :=
              fun a ha b hb hab =>
                hclq a (Finset.mem_of_mem_erase ha) b (Finset.mem_of_mem_erase hb) hab
            have hcard' : (E.erase u).card ≤ (Finset.Ico (u + 1) g.n).card :=
              Finset.card_le_card hE'
            rw [Nat.card_Ico] at hcard'
            rw [ebBacktrack]
            split <;> split
            · rename_i hcmp hprune
              have hprune' : (st.current ++ [u]).length + (g.n - (u + 1)) ≤
                  (st.current ++ [u]).length := hprune
              have hlen : (st.current ++ [u]).length = st.current.length + 1 := by simp
              show st.current.length + 1 + (E.erase u).card ≤ (st.current ++ [u]).length
              omega
            · rename_i hcmp hprune
              have hrec := ih (u + 1)
                { current := st.current ++ [u], best := st.current ++ [u] }
                (by omega) (le_refl _) (E.erase u) hE' hcompat' hclq'
              simp only [List.length_append, List.length_singleton] at hrec ⊢
              exact hrec
            · rename_i hcmp hprune
              have hprune' : (st.current ++ [u]).length + (g.n - (u + 1)) ≤
                  st.best.length := hprune
              have hlen : (st.current ++ [u]).length = st.current.length + 1 := by simp
              show st.current.length + 1 + (E.erase u).card ≤ st.best.length
              omega
            · rename_i hcmp hprune
              have hcmp' : ¬((st.current ++ [u]).length > st.best.length) := hcmp
              have hrec := ih (u + 1)
                { current := st.current ++ [u], best := st.best }
                (by omega)
                (by
                  show (st.current ++ [u]).length ≤ st.best.length
                  simp only [List.length_append, List.length_singleton] at hcmp' ⊢
                  omega)
                (E.erase u) hE' hcompat' hclq'
              simp only [List.length_append, List.length_singleton] at hrec ⊢
              exact hrec
          have hcard : E.card = (E.erase u).card + 1 :=
            (Finset.card_erase_add_one huE).symm
          have hcont := ebFor_best_mono g (g.n + 1 - (u + 1)) (u + 1)
            { ebBacktrack g (u + 1) { st with current := st.current ++ [u] } with
              current := (ebBacktrack g (u + 1)
                { st with current := st.current ++ [u] }).current.dropLast } le_rfl
          have hbesteq : ({ ebBacktrack g (u + 1) { st with current := st.current ++ [u] } with
              current := (ebBacktrack g (u + 1)
                { st with current := st.current ++ [u] }).current.dropLast } :
              EBState).best.length =
              (ebBacktrack g (u + 1) { st with current := st.current ++ [u] }).best.length :=
            rfl
          rw [hbesteq] at hcont
          refine le_trans ?_ hcont
          omega
        · have hE' : E ⊆ Finset.Ico (u + 1) g.n := by
            intro a ha
            have := Finset.mem_Ico.mp (hE ha)
            have hane : a ≠ u := fun hc => huE (hc ▸ ha)
            rw [Finset.mem_Ico]
            omega
          have hpres : (ebBacktrack g (u + 1)
              { st with current := st.current ++ [u] }).current = st.current ++ [u] :=
            ebBacktrack_current g (u + 1) _
          have hrec := ih (u + 1)
            { ebBacktrack g (u + 1) { st with current := st.current ++ [u] } with
              current := (ebBacktrack g (u + 1)
                { st with current := st.current ++ [u] }).current.dropLast }
            (by omega)
            (by
              show (ebBacktrack g (u + 1)
                { st with current := st.current ++ [u] }).current.dropLast.length ≤ _
              rw [hpres, List.dropLast_concat]
              refine le_trans hcb ?_
              refine le_trans ?_ (ebBacktrack_best_mono g (u + 1)
                { st with current := st.current ++ [u] })
              exact le_refl _)
            E hE'
            (by
              intro a ha b hb
              show g.areAdjacent a b = true
              refine hcompat a ha b ?_
              have : (ebBacktrack g (u + 1)
                { st with current := st.current ++ [u] }).current.dropLast = st.current := by
                rw [hpres, List.dropLast_concat]
              rw [this] at hb
              exact hb)
            hclq
          have hcureq : ({ ebBacktrack g (u + 1) { st with current := st.current ++ [u] } with
              current := (ebBacktrack g (u + 1)
                { st with current := st.current ++ [u] }).current.dropLast } :
              EBState).current.length = st.current.length := by
            show (ebBacktrack g (u + 1)
              { st with current := st.current ++ [u] }).current.dropLast.length = _
            rw [hpres, List.dropLast_concat]
          rw [hcureq] at hrec
          exact hrec
      · rename_i hall
        have huE : u ∉ E := by
          intro huE
          apply hall
          rw [List.all_eq_true]
          intro b hb
          exact hcompat u huE b hb
        have hE' : E ⊆ Finset.Ico (u + 1) g.n := by
          intro a ha
          have := Finset.mem_Ico.mp (hE ha)
          have hane : a ≠ u := fun hc => huE (hc ▸ ha)
          rw [Finset.mem_Ico]
          omega
        exact ih (u + 1) st (by omega) hcb E hE' hcompat hclq
    · rename_i hu
      have hEe : E = ∅ := Finset.subset_empty.mp (by
        rw [Finset.Ico_eq_empty (by omega)] at hE
        exact hE)
      subst hEe
      simpa using hcb

theorem ebBacktrack_complete (g : MCGraph) (start : Nat) (st : EBState)
    (E : Finset Nat) (hE : E ⊆ Finset.Ico start g.n)
    (hcompat : ∀ a ∈ E, ∀ b ∈ st.current, g.areAdjacent a b = true)
    (hclq : IsCliqueSet (fun a b => g.areAdjacent a b) E) :
    st.current.length + E.card ≤ (ebBacktrack g start st).best.length := by
  have hcard : E.card ≤ g.n - start := by
    have := Finset.card_le_card hE
    rwa [Nat.card_Ico] at this
  rw [ebBacktrack]
  split <;> split
  · rename_i hcmp hprune
    have hprune' : st.current.length + (g.n - start) ≤ st.current.length := hprune
    show st.current.length + E.card ≤ st.current.length
    omega
  · rename_i hcmp hprune
    exact ebFor_complete g (g.n + 1 - start) start
      { current := st.current, best := st.current } le_rfl (le_refl _) E hE hcompat hclq
  · rename_i hcmp hprune
    have hprune' : st.current.length + (g.n - start) ≤ st.best.length := hprune
    show st.current.length + E.card ≤ st.best.length
    omega
  · rename_i hcmp hprune
    have hcmp' : ¬(st.current.length > st.best.length) := hcmp
    exact ebFor_complete g (g.n + 1 - start) start st le_rfl (by omega) E hE hcompat hclq

/-- A valid partial result of the optimization-form solvers: a pairwise
adjacent list of in-range vertices. -/
def EBOk (g : MCGraph) (l : List Nat) : Prop :=
  (l.Pairwise fun a b => g.areAdjacent a b = true) ∧ ∀ x ∈ l, x < g.n

theorem ebFor_sound (g : MCGraph)
    (hsym : ∀ u v, g.areAdjacent u v = g.areAdjacent v u) :
    ∀ m u st, g.n + 1 - u ≤ m → EBOk g st.current → EBOk g st.best →
      EBOk g (ebFor g u st).best := by
  intro m
  induction m with
  | zero =>
    intro u st hm hcur hbest
    rw [ebFor, dif_neg (by omega)]
    exact hbest
  | succ m ih =>
    intro u st hm hcur hbest
    rw [ebFor]
    split
    · rename_i hu
      split
      · rename_i hall
        have hcur' : EBOk g (st.current ++ [u]) := by
          constructor
          · rw [List.pairwise_append]
            refine ⟨hcur.1, by simp, ?_⟩
            intro a ha b hb
            rw [List.mem_singleton] at hb
            subst hb
            rw [hsym]
            exact (List.all_eq_true.mp hall) a ha
          · intro x hx
            rcases List.mem_append.mp hx with hx | hx
            · exact hcur.2 x hx
            · rw [List.mem_singleton] at hx
              subst hx
              exact hu
        have hback : EBOk g (ebBacktrack g (u + 1)
            { st with current := st.current ++ [u] }).best := by
          rw [ebBacktrack]
          split <;> split
          · exact hcur'
          · exact ih (u + 1) _ (by omega) hcur' hcur'
          · exact hbest
          · exact ih (u + 1) _ (by omega) hcur' hbest
        have hpres : (ebBacktrack g (u + 1)
            { st with current := st.current ++ [u] }).current = st.current ++ [u] :=
          ebBacktrack_current g (u + 1) _
        refine ih (u + 1)
          { ebBacktrack g (u + 1) { st with current := st.current ++ [u] } with
            current := (ebBacktrack g (u + 1)
              { st with current := st.current ++ [u] }).current.dropLast }
          (by omega) ?_ hback
        show EBOk g (ebBacktrack g (u + 1)
          { st with current := st.current ++ [u] }).current.dropLast
        rw [hpres, List.dropLast_concat]
        exact hcur
      · exact ih (u + 1) st (by omega) hcur hbest
    · exact hbest

theorem ebBacktrack_sound (g : MCGraph)
    (hsym : ∀ u v, g.areAdjacent u v = g.areAdjacent v u)
    (start : Nat) (st : EBState) (hcur : EBOk g st.current) (hbest : EBOk g st.best) :
    EBOk g (ebBacktrack g start st).best := by
  rw [ebBacktrack]
  split <;> split
  · exact hcur
  · exact ebFor_sound g hsym (g.n + 1 - start) start _ le_rfl hcur hcur
  · exact hbest
  · exact ebFor_sound g hsym (g.n + 1 - start) start st le_rfl hcur hbest

/-- `ExactBacktracking::findMaxClique` returns a maximum clique: its size is
the brute-force clique number. -/
theorem findMaxCliqueEB_len (g : MCGraph)
    (hsym : ∀ u v, g.areAdjacent u v = g.areAdjacent v u)
    (hirr : ∀ v, g.areAdjacent v v = false) :
    (findMaxCliqueEB g).length = cliqueNum g.n (fun a b => g.areAdjacent a b) := by
  apply le_antisymm
  · have hok : EBOk g (findMaxCliqueEB g) :=
      ebBacktrack_sound g hsym 0 _ ⟨List.Pairwise.nil, by simp⟩
        ⟨List.Pairwise.nil, by simp⟩
    have hnodup := pairwise_nodup _ hirr _ hok.1
    have hsub : (findMaxCliqueEB g).toFinset ⊆ Finset.range g.n := by
      intro x hx
      exact Finset.mem_range.mpr (hok.2 x (List.mem_toFinset.mp hx))
    have hle := le_cliqueNum g.n _ (findMaxCliqueEB g).toFinset hsub
      (pairwise_toFinset_clique _ hsym _ hok.1)
    rwa [List.toFinset_card_of_nodup hnodup] at hle
  · apply cliqueNum_le
    intro s hs hc
    have hcomp := ebBacktrack_complete g 0 { current := [], best := [] } s
      (by rwa [← Finset.range_eq_Ico]) (by intro a ha b hb; cases hb) hc
    simpa using hcomp

theorem card_le_of_mem_list (E : Finset Nat) (l : List Nat) (h : ∀ a ∈ E, a ∈ l) :
    E.card ≤ l.length :=
  le_trans (Finset.card_le_card fun a ha => List.mem_toFinset.mpr (h a ha))
    (List.toFinset_card_le l)

mutual

/-- `BranchAndBound::branchAndBound(candidates)`: update `bestClique`, return
on empty candidates, prune on the (trivial) upper bound `|candidates|`,
otherwise consume the candidate vector. The candidate vector is represented
back-to-front (Lean head = C++ `back()`), so `pop_back` is head consumption
and the C++ forward filter keeps the representation. -/
def bbRun (g : MCGraph) (cands : List Nat) (st : EBState) : EBState :=
  let st1 := if st.current.length > st.best.length then { st with best := st.current }
    else st
  if cands = [] then st1
  else if st1.current.length + cands.length ≤ st1.best.length then st1
  else bbLoop g cands st1
termination_by 2 * cands.length + 1
decreasing_by all_goals (simp_wf <;> omega)

/-- The `while (!candidates.empty())` loop of `branchAndBound`: pop the back,
`break` when even taking everything left cannot beat the best, push an
adjacent candidate, recurse on the neighbor-filtered remainder, pop. -/
def bbLoop (g : MCGraph) (cands : List Nat) (st : EBState) : EBState :=
  match cands with
  | [] => st
  | u :: rest =>
    if st.current.length + rest.length + 1 ≤ st.best.length then st
    else if st.current.all fun v => g.areAdjacent u v then
      let st1 := bbRun g (rest.filter fun v => g.areAdjacent u v)
        { st with current := st.current ++ [u] }
      bbLoop g rest { st1 with current := st1.current.dropLast }
    else bbLoop g rest st
termination_by 2 * cands.length
decreasing_by
  all_goals simp_wf
  all_goals
    first
    | omega
    | (have hfl := List.length_filter_le (fun v => g.areAdjacent y v) ys
       omega)
    | (have hfl := List.length_filter_le (fun v => g.areAdjacent u v) rest
       omega)

end

/-- The branching order of `BranchAndBound`: all vertices sorted by descending
degree (`std::sort` leaves equal-degree order unspecified; the stable outcome
is fixed here, and no property below depends on it), reversed into the
back-to-front list representation. -/
def bbOrder (g : MCGraph) : List Nat :=
  ((List.range g.n).mergeSort fun a b => decide (g.getDegree b ≤ g.getDegree a)).reverse

/-- `BranchAndBound::findMaxClique`. -/
def findMaxCliqueBB (g : MCGraph) : List Nat :=
  (bbRun g (bbOrder g) { current := [], best := [] }).best

theorem bbLoop_current (g : MCGraph) :
    ∀ m cands st, cands.length ≤ m → (bbLoop g cands st).current = st.current := by
  intro m
  induction m with
  | zero =>
    intro cands st hm
    have hnil : cands = [] := List.eq_nil_of_length_eq_zero (by omega)
    subst hnil
    have h0 : bbLoop g [] st = st := by simp only [bbLoop]
    rw [h0]
  | succ m ih =>
    intro cands st hm
    cases cands with
    | nil =>
      have h0 : bbLoop g [] st = st := by simp only [bbLoop]
      rw [h0]
    | cons u rest =>
      simp only [bbLoop]
      split
      · rfl
      · split
        · have hfl := List.length_filter_le (fun v => g.areAdjacent u v) rest
          have hrec : (bbRun g (rest.filter fun v => g.areAdjacent u v)
              { st with current := st.current ++ [u] }).current = st.current ++ [u] := by
            rw [bbRun]
            split <;> split
            · rfl
            · rfl
            · split
              · rfl
              · exact ih (rest.filter fun v => g.areAdjacent u v)
                  { current := st.current ++ [u], best := st.current ++ [u] }
                  (by
                    have hfl := List.length_filter_le (fun v => g.areAdjacent u v) rest
                    simp at hm
                    omega)
            · split
              · rfl
              · exact ih (rest.filter fun v => g.areAdjacent u v)
                  { current := st.current ++ [u], best := st.best }
                  (by
                    have hfl := List.length_filter_le (fun v => g.areAdjacent u v) rest
                    simp at hm
                    omega)
          rw [ih rest _ (by simp at hm; omega), hrec, List.dropLast_concat]
        · exact ih rest st (by simp at hm; omega)

theorem bbRun_current (g : MCGraph) (cands : List Nat) (st : EBState) :
    (bbRun g cands st).current = st.current := by
  rw [bbRun]
  split <;> split
  · rfl
  · rfl
  · split
    · rfl
    · exact bbLoop_current g cands.length cands _ le_rfl
  · split
    · rfl
    · exact bbLoop_current g cands.length cands _ le_rfl

theorem bbLoop_best_mono (g : MCGraph) :
    ∀ m cands st, cands.length ≤ m → st.best.length ≤ (bbLoop g cands st).best.length := by
  intro m
  induction m with
  | zero =>
    intro cands st hm
    have hnil : cands = [] := List.eq_nil_of_length_eq_zero (by omega)
    subst hnil
    have h0 : bbLoop g [] st = st := by simp only [bbLoop]
    rw [h0]
  | succ m ih =>
    intro cands st hm
    cases cands with
    | nil =>
      have h0 : bbLoop g [] st = st := by simp only [bbLoop]
      rw [h0]
    | cons u rest =>
      simp only [bbLoop]
      split
      · exact le_refl _
      · split
        · have hfl := List.length_filter_le (fun v => g.areAdjacent u v) rest
          have hrec : st.best.length ≤ (bbRun g (rest.filter fun v => g.areAdjacent u v)
              { st with current := st.current ++ [u] }).best.length := by
            rw [bbRun]
            split <;> split
            · rename_i hnil hcmp
              exact Nat.le_of_lt hcmp
            · exact le_refl _
            · rename_i hnil hcmp
              split
              · exact Nat.le_of_lt hcmp
              · refine le_trans (Nat.le_of_lt hcmp) ?_
                exact ih (rest.filter fun v => g.areAdjacent u v)
                  { current := st.current ++ [u], best := st.current ++ [u] }
                  (by
                    have hfl := List.length_filter_le (fun v => g.areAdjacent u v) rest
                    simp at hm
                    omega)
            · split
              · exact le_refl _
              · exact ih (rest.filter fun v => g.areAdjacent u v)
                  { current := st.current ++ [u], best := st.best }
                  (by
                    have hfl := List.length_filter_le (fun v => g.areAdjacent u v) rest
                    simp at hm
                    omega)
          refine le_trans hrec ?_
          exact ih rest
            { bbRun g (rest.filter fun v => g.areAdjacent u v)
                { st with current := st.current ++ [u] } with
              current := (bbRun g (rest.filter fun v => g.areAdjacent u v)
                { st with current := st.current ++ [u] }).current.dropLast }
            (by simp at hm; omega)
        · exact ih rest st (by simp at hm; omega)

theorem bbRun_best_mono (g : MCGraph) (cands : List Nat) (st : EBState) :
    st.best.length ≤ (bbRun g cands st).best.length := by
  rw [bbRun]
  split <;> split
  · rename_i hnil hcmp
    exact Nat.le_of_lt hcmp
  · exact le_refl _
  · rename_i hnil hcmp
    split
    · exact Nat.le_of_lt hcmp
    · refine le_trans (Nat.le_of_lt hcmp) ?_
      exact bbLoop_best_mono g cands.length cands
        { current := st.current, best := st.current } le_rfl
  · split
    · exact le_refl _
    · exact bbLoop_best_mono g cands.length cands st le_rfl

theorem mem_bbOrder (g : MCGraph) (v : Nat) : v ∈ bbOrder g ↔ v < g.n := by
  unfold bbOrder
  rw [List.mem_reverse, (List.mergeSort_perm _ _).mem_iff, List.mem_range]

theorem bbLoop_complete (g : MCGraph) :
    ∀ m cands st, cands.length ≤ m →
      st.current.length ≤ st.best.length →
      ∀ E : Finset Nat, (∀ a ∈ E, a ∈ cands) →
        (∀ a ∈ E, ∀ b ∈ st.current, g.areAdjacent a b = true) →
        IsCliqueSet (fun a b => g.areAdjacent a b) E →
        st.current.length + E.card ≤ (bbLoop g cands st).best.length := by
  intro m
  induction m with
  | zero =>
    intro cands st hm hcb E hmem hcompat hclq
    have hnil : cands = [] := List.eq_nil_of_length_eq_zero (by omega)
    subst hnil
    have h0 : bbLoop g [] st = st := by simp only [bbLoop]
    rw [h0]
    have hE0 : E = ∅ := Finset.eq_empty_of_forall_not_mem fun a ha => by
      have := hmem a ha
      simp at this
    subst hE0
    simpa using hcb
  | succ m ih =>
    intro cands st hm hcb E hmem hcompat hclq
    cases cands with
    | nil =>
      have h0 : bbLoop g [] st = st := by simp only [bbLoop]
      rw [h0]
      have hE0 : E = ∅ := Finset.eq_empty_of_forall_not_mem fun a ha => by
        have := hmem a ha
        simp at this
      subst hE0
      simpa using hcb
    | cons u rest =>
      have hm' : rest.length ≤ m := by simp at hm; omega
      simp only [bbLoop]
      split
      · rename_i hbrk
        have hcardE : E.card ≤ rest.length + 1 := by
          have := card_le_of_mem_list E (u :: rest) hmem
          simpa using this
        omega
      · rename_i hbrk
        split
        · rename_i hall
          have hfl := List.length_filter_le (fun v => g.areAdjacent u v) rest
          by_cases huE : u ∈ E
          · have hmem' : ∀ a ∈ E.erase u,
                a ∈ rest.filter fun v => g.areAdjacent u v := by
              intro a ha
              have hane := Finset.ne_of_mem_erase ha
              have haE := Finset.mem_of_mem_erase ha
              rw [List.mem_filter]
              constructor
              · rcases List.mem_cons.mp (hmem a haE) with h | h
                · exact absurd h hane
                · exact h
              · exact hclq u huE a haE (fun hc => hane hc.symm)
            have hcompat' : ∀ a ∈ E.erase u, ∀ b ∈ st.current ++ [u],
                g.areAdjacent a b = true := by
              intro a ha b hb
              rcases List.mem_append.mp hb with hb | hb
              · exact hcompat a (Finset.mem_of_mem_erase ha) b hb
              · rw [List.mem_singleton] at hb
                subst hb
                exact hclq a (Finset.mem_of_mem_erase ha) b huE (Finset.ne_of_mem_erase ha)
            have hclq' : IsCliqueSet (fun a b => g.areAdjacent a b) (E.erase u) :=
              fun a ha b hb hab =>
                hclq a (Finset.mem_of_mem_erase ha) b (Finset.mem_of_mem_erase hb) hab
            have hcard' : (E.erase u).card ≤
                (rest.filter fun v => g.areAdjacent u v).length :=
              card_le_of_mem_list _ _ hmem'
            have hback : (st.current.length + 1) + (E.erase u).card ≤
                (bbRun g (rest.filter fun v => g.areAdjacent u v)
                  { st with current := st.current ++ [u] }).best.length := by
              rw [bbRun]
              split <;> split
              · rename_i hnil hcmp
                have hE0 : (E.erase u).card = 0 :=
                  Finset.card_eq_zero.mpr (Finset.eq_empty_of_forall_not_mem
                    fun a ha => by
                      have := hmem' a ha
                      rw [hnil] at this
                      cases this)
                show st.current.length + 1 + (E.erase u).card ≤
                  (st.current ++ [u]).length
                simp [hE0]
              · rename_i hnil hcmp
                have hE0 : (E.erase u).card = 0 :=
                  Finset.card_eq_zero.mpr (Finset.eq_empty_of_forall_not_mem
                    fun a ha => by
                      have := hmem' a ha
                      rw [hnil] at this
                      cases this)
                have hcmp' : ¬((st.current ++ [u]).length > st.best.length) := hcmp
                show st.current.length + 1 + (E.erase u).card ≤ st.best.length
                simp only [List.length_append, List.length_singleton] at hcmp'
                omega
              · rename_i hnil hcmp
                split
                · rename_i hprune
                  have hprune' : (st.current ++ [u]).length +
                      (rest.filter fun v => g.areAdjacent u v).length ≤
                      (st.current ++ [u]).length := hprune
                  show st.current.length + 1 + (E.erase u).card ≤
                    (st.current ++ [u]).length
                  simp only [List.length_append, List.length_singleton] at hprune' ⊢
                  omega
                · have hrec := ih (rest.filter fun v => g.areAdjacent u v)
                    { current := st.current ++ [u], best := st.current ++ [u] }
                    (by omega) (le_refl _) (E.erase u) hmem' hcompat' hclq'
                  simp only [List.length_append, List.length_singleton] at hrec ⊢
                  exact hrec
              · rename_i hnil hcmp
                split
                · rename_i hprune
                  have hprune' : (st.current ++ [u]).length +
                      (rest.filter fun v => g.areAdjacent u v).length ≤
                      st.best.length := hprune
                  show st.current.length + 1 + (E.erase u).card ≤ st.best.length
                  simp only [List.length_append, List.length_singleton] at hprune' ⊢
                  omega
                · have hcmp' : ¬((st.current ++ [u]).length > st.best.length) := hcmp
                  have hrec := ih (rest.filter fun v => g.areAdjacent u v)
                    { current := st.current ++ [u], best := st.best }
                    (by omega)
                    (by
                      show (st.current ++ [u]).length ≤ st.best.length
                      simp only [List.length_append, List.length_singleton] at hcmp' ⊢
                      omega)
                    (E.erase u) hmem' hcompat' hclq'
                  simp only [List.length_append, List.length_singleton] at hrec ⊢
                  exact hrec
            have hcard : E.card = (E.erase u).card + 1 :=
              (Finset.card_erase_add_one huE).symm
            have hcont := bbLoop_best_mono g rest.length rest
              { bbRun g (rest.filter fun v => g.areAdjacent u v)
                  { st with current := st.current ++ [u] } with
                current := (bbRun g (rest.filter fun v => g.areAdjacent u v)
                  { st with current := st.current ++ [u] }).current.dropLast } le_rfl
            refine le_trans ?_ hcont
            show st.current.length + E.card ≤
              (bbRun g (rest.filter fun v => g.areAdjacent u v)
                { st with current := st.current ++ [u] }).best.length
            omega
          · have hpres : (bbRun g (rest.filter fun v => g.areAdjacent u v)
                { st with current := st.current ++ [u] }).current =
                st.current ++ [u] := bbRun_current g _ _
            have hrec := ih rest
              { bbRun g (rest.filter fun v => g.areAdjacent u v)
                  { st with current := st.current ++ [u] } with
                current := (bbRun g (rest.filter fun v => g.areAdjacent u v)
                  { st with current := st.current ++ [u] }).current.dropLast }
              hm'
              (by
                show (bbRun g (rest.filter fun v => g.areAdjacent u v)
                  { st with current := st.current ++ [u] }).current.dropLast.length ≤ _
                rw [hpres, List.dropLast_concat]
                refine le_trans hcb ?_
                exact bbRun_best_mono g (rest.filter fun v => g.areAdjacent u v)
                  { st with current := st.current ++ [u] })
              E
              (by
                intro a ha
                rcases List.mem_cons.mp (hmem a ha) with h | h
                · exact absurd (h ▸ ha) huE
                · exact h)
              (by
                intro a ha b hb
                refine hcompat a ha b ?_
                have hrw : (bbRun g (rest.filter fun v => g.areAdjacent u v)
                    { st with current := st.current ++ [u] }).current.dropLast =
                    st.current := by
                  rw [hpres, List.dropLast_concat]
                rw [hrw] at hb
                exact hb)
              hclq
            have hcureq : ({ bbRun g (rest.filter fun v => g.areAdjacent u v)
                { st with current := st.current ++ [u] } with
                current := (bbRun g (rest.filter fun v => g.areAdjacent u v)
                  { st with current := st.current ++ [u] }).current.dropLast } :
                EBState).current.length = st.current.length := by
              show (bbRun g (rest.filter fun v => g.areAdjacent u v)
                { st with current := st.current ++ [u] }).current.dropLast.length = _
              rw [hpres, List.dropLast_concat]
            rw [hcureq] at hrec
            exact hrec
        · rename_i hall
          have huE : u ∉ E := by
            intro huE
            apply hall
            rw [List.all_eq_true]
            intro b hb
            exact hcompat u huE b hb
          refine ih rest st hm' hcb E ?_ hcompat hclq
          intro a ha
          rcases List.mem_cons.mp (hmem a ha) with h | h
          · exact absurd (h ▸ ha) huE
          · exact h

theorem bbRun_complete (g : MCGraph) (cands : List Nat) (st : EBState)
    (E : Finset Nat) (hmem : ∀ a ∈ E, a ∈ cands)
    (hcompat : ∀ a ∈ E, ∀ b ∈ st.current, g.areAdjacent a b = true)
    (hclq : IsCliqueSet (fun a b => g.areAdjacent a b) E) :
    st.current.length + E.card ≤ (bbRun g cands st).best.length := by
  have hcardE : E.card ≤ cands.length := card_le_of_mem_list E cands hmem
  rw [bbRun]
  split <;> split
  · rename_i hnil hcmp
    have hE0 : E = ∅ := Finset.eq_empty_of_forall_not_mem fun a ha => by
      have := hmem a ha
      rw [hnil] at this
      cases this
    subst hE0
    simp
  · rename_i hnil hcmp
    have hE0 : E = ∅ := Finset.eq_empty_of_forall_not_mem fun a ha => by
      have := hmem a ha
      rw [hnil] at this
      cases this
    subst hE0
    have hcmp' : ¬(st.current.length > st.best.length) := hcmp
    simp only [Finset.card_empty, Nat.add_zero]
    omega
  · rename_i hnil hcmp
    split
    · rename_i hprune
      have hprune' : st.current.length + cands.length ≤ st.current.length := hprune
      show st.current.length + E.card ≤ st.current.length
      omega
    · exact bbLoop_complete g cands.length cands
        { current := st.current, best := st.current } le_rfl (le_refl _)
        E hmem hcompat hclq
  · rename_i hnil hcmp
    split
    · rename_i hprune
      have hprune' : st.current.length + cands.length ≤ st.best.length := hprune
      show st.current.length + E.card ≤ st.best.length
      omega
    · have hcmp' : ¬(st.current.length > st.best.length) := hcmp
      exact bbLoop_complete g cands.length cands st le_rfl (by omega)
        E hmem hcompat hclq

theorem bbLoop_sound (g : MCGraph)
    (hsym : ∀ u v, g.areAdjacent u v = g.areAdjacent v u) :
    ∀ m cands st, cands.length ≤ m → (∀ x ∈ cands, x < g.n) →
      EBOk g st.current → EBOk g st.best → EBOk g (bbLoop g cands st).best := by
  intro m
  induction m with
  | zero =>
    intro cands st hm hbnd hcur hbest
    have hnil : cands = [] := List.eq_nil_of_length_eq_zero (by omega)
    subst hnil
    have h0 : bbLoop g [] st = st := by simp only [bbLoop]
    rw [h0]
    exact hbest
  | succ m ih =>
    intro cands st hm hbnd hcur hbest
    cases cands with
    | nil =>
      have h0 : bbLoop g [] st = st := by simp only [bbLoop]
      rw [h0]
      exact hbest
    | cons u rest =>
      have hm' : rest.length ≤ m := by simp at hm; omega
      have hbnd' : ∀ x ∈ rest, x < g.n := fun x hx => hbnd x (List.mem_cons_of_mem u hx)
      have hfbnd : ∀ x ∈ rest.filter (fun v => g.areAdjacent u v), x < g.n :=
        fun x hx => hbnd' x (List.mem_of_mem_filter hx)
      have hfl := List.length_filter_le (fun v => g.areAdjacent u v) rest
      simp only [bbLoop]
      split
      · exact hbest
      · split
        · rename_i hbrk hall
          have hcur' : EBOk g (st.current ++ [u]) := by
            constructor
            · rw [List.pairwise_append]
              refine ⟨hcur.1, by simp, ?_⟩
              intro a ha b hb
              rw [List.mem_singleton] at hb
              subst hb
              rw [hsym]
              exact (List.all_eq_true.mp hall) a ha
            · intro x hx
              rcases List.mem_append.mp hx with hx | hx
              · exact hcur.2 x hx
              · rw [List.mem_singleton] at hx
                subst hx
                exact hbnd x (List.mem_cons_self x rest)
          have hback : EBOk g (bbRun g (rest.filter fun v => g.areAdjacent u v)
              { st with current := st.current ++ [u] }).best := by
            rw [bbRun]
            split <;> split
            · exact hcur'
            · exact hbest
            · split
              · exact hcur'
              · exact ih _ _ (by omega) hfbnd hcur' hcur'
            · split
              · exact hbest
              · exact ih _ _ (by omega) hfbnd hcur' hbest
          have hpres : (bbRun g (rest.filter fun v => g.areAdjacent u v)
              { st with current := st.current ++ [u] }).current = st.current ++ [u] :=
            bbRun_current g _ _
          refine ih rest
            { bbRun g (rest.filter fun v => g.areAdjacent u v)
                { st with current := st.current ++ [u] } with
              current := (bbRun g (rest.filter fun v => g.areAdjacent u v)
                { st with current := st.current ++ [u] }).current.dropLast }
            hm' hbnd' ?_ hback
          show EBOk g (bbRun g (rest.filter fun v => g.areAdjacent u v)
            { st with current := st.current ++ [u] }).current.dropLast
          rw [hpres, List.dropLast_concat]
          exact hcur
        · exact ih rest st hm' hbnd' hcur hbest

theorem bbRun_sound (g : MCGraph)
    (hsym : ∀ u v, g.areAdjacent u v = g.areAdjacent v u)
    (cands : List Nat) (st : EBState) (hbnd : ∀ x ∈ cands, x < g.n)
    (hcur : EBOk g st.current) (hbest : EBOk g st.best) :
    EBOk g (bbRun g cands st).best := by
  rw [bbRun]
  split <;> split
  · exact hcur
  · exact hbest
  · split
    · exact hcur
    · exact bbLoop_sound g hsym cands.length cands
        { current := st.current, best := st.current } le_rfl hbnd hcur hcur
  · split
    · exact hbest
    · exact bbLoop_sound g hsym cands.length cands st le_rfl hbnd hcur hbest

/-- `BranchAndBound::findMaxClique` returns a maximum clique: its size is the
brute-force clique number. -/
theorem findMaxCliqueBB_len (g : MCGraph)
    (hsym : ∀ u v, g.areAdjacent u v = g.areAdjacent v u)
    (hirr : ∀ v, g.areAdjacent v v = false) :
    (findMaxCliqueBB g).length = cliqueNum g.n (fun a b => g.areAdjacent a b) := by
  apply le_antisymm
  · have hok : EBOk g (findMaxCliqueBB g) :=
      bbRun_sound g hsym (bbOrder g) { current := [], best := [] }
        (fun x hx => (mem_bbOrder g x).mp hx)
        ⟨List.Pairwise.nil, by simp⟩ ⟨List.Pairwise.nil, by simp⟩
    have hnodup := pairwise_nodup _ hirr _ hok.1
    have hsub : (findMaxCliqueBB g).toFinset ⊆ Finset.range g.n := by
      intro x hx
      exact Finset.mem_range.mpr (hok.2 x (List.mem_toFinset.mp hx))
    have hle := le_cliqueNum g.n _ (findMaxCliqueBB g).toFinset hsub
      (pairwise_toFinset_clique _ hsym _ hok.1)
    rwa [List.toFinset_card_of_nodup hnodup] at hle
  · apply cliqueNum_le
    intro s hs hc
    have hcomp := bbRun_complete g (bbOrder g) { current := [], best := [] } s
      (fun a ha => (mem_bbOrder g a).mpr (Finset.mem_range.mp (hs ha)))
      (by intro a ha b hb; cases hb) hc
    simpa using hcomp

/-! ## `kclique.cpp`: `expand` / `solve_exact` -/

/-- The `Graph` struct of `kclique.cpp`: adjacency matrix and degree array
(filled by `readGraph`). -/
structure QGraph where
  n : Nat
  m : Nat
  adjMat : Nat → Nat → Bool
  degrees : Nat → Nat

mutual

/-- `expand(g, candidates, current_clique, max_size)`: record the clique size
at an empty candidate set, prune when `current + candidates` cannot beat the
record, otherwise consume the candidate vector (represented back-to-front:
Lean head = C++ `back()`). Returns the updated `max_size`. -/
def qExpand (g : QGraph) (cands current : List Nat) (best : Nat) : Nat :=
  if cands = [] then (if current.length > best then current.length else best)
  else if current.length + cands.length ≤ best then best
  else qLoop g cands current best
termination_by 2 * cands.length + 1
decreasing_by all_goals (simp_wf <;> omega)

/-- The `while (!candidates.empty())` loop of `expand`: pop the back, filter
the remaining candidates to the popped vertex's neighbors, push, recurse,
pop. -/
def qLoop (g : QGraph) (cands current : List Nat) (best : Nat) : Nat :=
  match cands with
  | [] => best
  | v :: rest =>
    qLoop g rest current
      (qExpand g (rest.filter fun u => g.adjMat v u) (current ++ [v]) best)
termination_by 2 * cands.length
decreasing_by
  all_goals simp_wf
  all_goals
    first
    | omega
    | (have hfl := List.length_filter_le (fun u => g.adjMat y u) ys
       omega)
    | (have hfl := List.length_filter_le (fun u => g.adjMat v u) rest
       omega)

end

/-- `solve_exact`: all vertices as initial candidates, empty clique, record 0. -/
def qSolveExact (g : QGraph) : Nat :=
  qExpand g (List.range g.n).reverse [] 0

theorem qLoop_mono (g : QGraph) :
    ∀ m cands current best, cands.length ≤ m → best ≤ qLoop g cands current best := by
  intro m
  induction m with
  | zero =>
    intro cands current best hm
    have hnil : cands = [] := List.eq_nil_of_length_eq_zero (by omega)
    subst hnil
    have h0 : qLoop g [] current best = best := by simp only [qLoop]
    rw [h0]
  | succ m ih =>
    intro cands current best hm
    cases cands with
    | nil =>
      have h0 : qLoop g [] current best = best := by simp only [qLoop]
      rw [h0]
    | cons v rest =>
      have hm' : rest.length ≤ m := by simp at hm; omega
      have hfl := List.length_filter_le (fun u => g.adjMat v u) rest
      simp only [qLoop]
      have hchild : best ≤ qExpand g (rest.filter fun u => g.adjMat v u)
          (current ++ [v]) best := by
        rw [qExpand]
        split
        · split
          · rename_i hnil hcmp
            exact Nat.le_of_lt hcmp
          · exact le_refl _
        · split
          · exact le_refl _
          · exact ih _ _ _ (by omega)
      exact le_trans hchild (ih rest current _ hm')

theorem qLoop_complete (g : QGraph) :
    ∀ m cands current best, cands.length ≤ m →
      ∀ E : Finset Nat, (∀ a ∈ E, a ∈ cands) →
        (∀ a ∈ E, ∀ b ∈ current, g.adjMat b a = true) →
        IsCliqueSet g.adjMat E →
        (E.Nonempty ∨ current.length ≤ best ∨ cands ≠ []) →
        current.length + E.card ≤ qLoop g cands current best := by
  intro m
  induction m with
  | zero =>
    intro cands current best hm E hmem hcompat hclq hside
    have hnil : cands = [] := List.eq_nil_of_length_eq_zero (by omega)
    subst hnil
    have h0 : qLoop g [] current best = best := by simp only [qLoop]
    rw [h0]
    have hE0 : E = ∅ := Finset.eq_empty_of_forall_not_mem fun a ha => by
      have := hmem a ha
      simp at this
    subst hE0
    rcases hside with h | h | h
    · simp at h
    · simpa using h
    · simp at h
  | succ m ih =>
    intro cands current best hm E hmem hcompat hclq hside
    cases cands with
    | nil =>
      have h0 : qLoop g [] current best = best := by simp only [qLoop]
      rw [h0]
      have hE0 : E = ∅ := Finset.eq_empty_of_forall_not_mem fun a ha => by
        have := hmem a ha
        simp at this
      subst hE0
      rcases hside with h | h | h
      · simp at h
      · simpa using h
      · simp at h
    | cons v rest =>
      have hm' : rest.length ≤ m := by simp at hm; omega
      have hfl := List.length_filter_le (fun u => g.adjMat v u) rest
      simp only [qLoop]
      by_cases hvE : v ∈ E
      · -- the child call covers the whole extension E
        have hmem' : ∀ a ∈ E.erase v, a ∈ rest.filter fun u => g.adjMat v u := by
          intro a ha
          have hane := Finset.ne_of_mem_erase ha
          have haE := Finset.mem_of_mem_erase ha
          rw [List.mem_filter]
          constructor
          · rcases List.mem_cons.mp (hmem a haE) with h | h
            · exact absurd h hane
            · exact h
          · exact hclq v hvE a haE fun hc => hane hc.symm
        have hcompat' : ∀ a ∈ E.erase v, ∀ b ∈ current ++ [v],
            g.adjMat b a = true := by
          intro a ha b hb
          rcases List.mem_append.mp hb with hb | hb
          · exact hcompat a (Finset.mem_of_mem_erase ha) b hb
          · rw [List.mem_singleton] at hb
            subst hb
            exact hclq b hvE a (Finset.mem_of_mem_erase ha)
              fun hc => (Finset.ne_of_mem_erase ha) hc.symm
        have hclq' : IsCliqueSet g.adjMat (E.erase v) :=
          fun a ha b hb hab =>
            hclq a (Finset.mem_of_mem_erase ha) b (Finset.mem_of_mem_erase hb) hab
        have hcard' : (E.erase v).card ≤ (rest.filter fun u => g.adjMat v u).length :=
          card_le_of_mem_list _ _ hmem'
        have hchild : (current.length + 1) + (E.erase v).card ≤
            qExpand g (rest.filter fun u => g.adjMat v u) (current ++ [v]) best := by
          rw [qExpand]
          split
          · rename_i hnil
            have hE0 : (E.erase v).card = 0 :=
              Finset.card_eq_zero.mpr (Finset.eq_empty_of_forall_not_mem
                fun a ha => by
                  have := hmem' a ha
                  rw [hnil] at this
                  cases this)
            rw [hE0]
            split
            · rename_i hcmp
              simp
            · rename_i hcmp
              simp only [List.length_append, List.length_singleton] at hcmp ⊢
              omega
          · split
            · rename_i hnil hprune
              simp only [List.length_append, List.length_singleton] at hprune ⊢
              omega
            · rename_i hnil hprune
              have hrec := ih (rest.filter fun u => g.adjMat v u) (current ++ [v])
                best (by omega) (E.erase v) hmem' hcompat' hclq'
                (Or.inr (Or.inr hnil))
              simp only [List.length_append, List.length_singleton] at hrec ⊢
              exact hrec
        have hcard : E.card = (E.erase v).card + 1 :=
          (Finset.card_erase_add_one hvE).symm
        have hcont := qLoop_mono g rest.length rest current
          (qExpand g (rest.filter fun u => g.adjMat v u) (current ++ [v]) best) le_rfl
        omega
      · -- v is skipped: the extension lives in the remaining candidates
        have hmem' : ∀ a ∈ E, a ∈ rest := by
          intro a ha
          rcases List.mem_cons.mp (hmem a ha) with h | h
          · exact absurd (h ▸ ha) hvE
          · exact h
        refine ih rest current _ hm' E hmem' hcompat hclq ?_
        rcases Finset.eq_empty_or_nonempty E with hE0 | hne
        · subst hE0
          right
          left
          -- the child value is at least current.length + 1 > current.length
          have hchild : current.length ≤
              qExpand g (rest.filter fun u => g.adjMat v u) (current ++ [v]) best := by
            rw [qExpand]
            split
            · split
              · rename_i hnil hcmp
                show current.length ≤ (current ++ [v]).length
                simp
              · rename_i hnil hcmp
                simp only [List.length_append, List.length_singleton, not_lt] at hcmp
                omega
            · split
              · rename_i hnil hprune
                simp only [List.length_append, List.length_singleton] at hprune
                omega
              · rename_i hnil hprune
                have hrec := ih (rest.filter fun u => g.adjMat v u) (current ++ [v])
                  best (by omega) ∅ (by simp) (by simp) (by intro a ha; simp at ha)
                  (Or.inr (Or.inr hnil))
                simp only [Finset.card_empty, Nat.add_zero,
                  List.length_append, List.length_singleton] at hrec
                omega
          exact hchild
        · exact Or.inl hne

theorem qExpand_complete (g : QGraph) (cands current : List Nat) (best : Nat)
    (E : Finset Nat) (hmem : ∀ a ∈ E, a ∈ cands)
    (hcompat : ∀ a ∈ E, ∀ b ∈ current, g.adjMat b a = true)
    (hclq : IsCliqueSet g.adjMat E) :
    current.length + E.card ≤ qExpand g cands current best := by
  have hcardE : E.card ≤ cands.length := card_le_of_mem_list E cands hmem
  rw [qExpand]
  split
  · rename_i hnil
    have hE0 : E = ∅ := Finset.eq_empty_of_forall_not_mem fun a ha => by
      have := hmem a ha
      rw [hnil] at this
      cases this
    subst hE0
    split
    · rename_i hcmp
      simp
    · rename_i hcmp
      simp only [Finset.card_empty, Nat.add_zero]
      omega
  · split
    · rename_i hnil hprune
      omega
    · rename_i hnil hprune
      exact qLoop_complete g cands.length cands current best le_rfl E hmem hcompat
        hclq (Or.inr (Or.inr hnil))

theorem qLoop_sound (g : QGraph)
    (hsym : ∀ u v, g.adjMat u v = g.adjMat v u)
    (hirr : ∀ v, g.adjMat v v = false) :
    ∀ m cands current best, cands.length ≤ m →
      (∀ x ∈ cands, x < g.n) →
      (current.Pairwise fun a b => g.adjMat a b = true) →
      (∀ x ∈ current, x < g.n) →
      (∀ c ∈ cands, ∀ b ∈ current, g.adjMat b c = true) →
      best ≤ cliqueNum g.n g.adjMat →
      qLoop g cands current best ≤ cliqueNum g.n g.adjMat := by
  intro m
  induction m with
  | zero =>
    intro cands current best hm hbnd hpw hcbnd hcompat hbest
    have hnil : cands = [] := List.eq_nil_of_length_eq_zero (by omega)
    subst hnil
    have h0 : qLoop g [] current best = best := by simp only [qLoop]
    rw [h0]
    exact hbest
  | succ m ih =>
    intro cands current best hm hbnd hpw hcbnd hcompat hbest
    cases cands with
    | nil =>
      have h0 : qLoop g [] current best = best := by simp only [qLoop]
      rw [h0]
      exact hbest
    | cons v rest =>
      have hm' : rest.length ≤ m := by simp at hm; omega
      have hfl := List.length_filter_le (fun u => g.adjMat v u) rest
      have hvn : v < g.n := hbnd v (List.mem_cons_self v rest)
      have hpw' : (current ++ [v]).Pairwise fun a b => g.adjMat a b = true := by
        rw [List.pairwise_append]
        refine ⟨hpw, by simp, ?_⟩
        intro a ha b hb
        rw [List.mem_singleton] at hb
        rw [hb]
        exact hcompat v (List.mem_cons_self v rest) a ha
      have hcbnd' : ∀ x ∈ current ++ [v], x < g.n := by
        intro x hx
        rcases List.mem_append.mp hx with hx | hx
        · exact hcbnd x hx
        · rw [List.mem_singleton] at hx
          subst hx
          exact hvn
      have hcur_le : current.length ≤ cliqueNum g.n g.adjMat := by
        have hnodup := pairwise_nodup _ hirr _ hpw
        have hsub : current.toFinset ⊆ Finset.range g.n := fun x hx =>
          Finset.mem_range.mpr (hcbnd x (List.mem_toFinset.mp hx))
        have hle := le_cliqueNum g.n _ current.toFinset hsub
          (pairwise_toFinset_clique _ hsym _ hpw)
        rwa [List.toFinset_card_of_nodup hnodup] at hle
      have hcur_le' : (current ++ [v]).length ≤ cliqueNum g.n g.adjMat := by
        have hnodup := pairwise_nodup _ hirr _ hpw'
        have hsub : (current ++ [v]).toFinset ⊆ Finset.range g.n := fun x hx =>
          Finset.mem_range.mpr (hcbnd' x (List.mem_toFinset.mp hx))
        have hle := le_cliqueNum g.n _ (current ++ [v]).toFinset hsub
          (pairwise_toFinset_clique _ hsym _ hpw')
        rwa [List.toFinset_card_of_nodup hnodup] at hle
      have hchild : qExpand g (rest.filter fun u => g.adjMat v u) (current ++ [v])
          best ≤ cliqueNum g.n g.adjMat := by
        rw [qExpand]
        split
        · split
          · exact hcur_le'
          · exact hbest
        · split
          · exact hbest
          · rename_i hnil hprune
            refine ih (rest.filter fun u => g.adjMat v u) (current ++ [v]) best
              (by omega) ?_ hpw' hcbnd' ?_ hbest
            · intro x hx
              exact hbnd x (List.mem_cons_of_mem v (List.mem_of_mem_filter hx))
            · intro c hc b hb
              rcases List.mem_append.mp hb with hb | hb
              · exact hcompat c
                  (List.mem_cons_of_mem v (List.mem_of_mem_filter hc)) b hb
              · rw [List.mem_singleton] at hb
                subst hb
                exact (List.of_mem_filter hc)
      simp only [qLoop]
      refine ih rest current _ hm' ?_ hpw hcbnd ?_ hchild
      · intro x hx
        exact hbnd x (List.mem_cons_of_mem v hx)
      · intro c hc b hb
        exact hcompat c (List.mem_cons_of_mem v hc) b hb

theorem qExpand_sound (g : QGraph)
    (hsym : ∀ u v, g.adjMat u v = g.adjMat v u)
    (hirr : ∀ v, g.adjMat v v = false)
    (cands current : List Nat) (best : Nat)
    (hbnd : ∀ x ∈ cands, x < g.n)
    (hpw : current.Pairwise fun a b => g.adjMat a b = true)
    (hcbnd : ∀ x ∈ current, x < g.n)
    (hcompat : ∀ c ∈ cands, ∀ b ∈ current, g.adjMat b c = true)
    (hbest : best ≤ cliqueNum g.n g.adjMat) :
    qExpand g cands current best ≤ cliqueNum g.n g.adjMat := by
  have hcur_le : current.length ≤ cliqueNum g.n g.adjMat := by
    have hnodup := pairwise_nodup _ hirr _ hpw
    have hsub : current.toFinset ⊆ Finset.range g.n := fun x hx =>
      Finset.mem_range.mpr (hcbnd x (List.mem_toFinset.mp hx))
    have hle := le_cliqueNum g.n _ current.toFinset hsub
      (pairwise_toFinset_clique _ hsym _ hpw)
    rwa [List.toFinset_card_of_nodup hnodup] at hle
  rw [qExpand]
  split
  · split
    · exact hcur_le
    · exact hbest
  · split
    · exact hbest
    · exact qLoop_sound g hsym hirr cands.length cands current best le_rfl hbnd
        hpw hcbnd hcompat hbest

/-- `solve_exact` of `kclique.cpp` returns the brute-force maximum clique
size. -/
theorem qSolveExact_eq (g : QGraph)
    (hsym : ∀ u v, g.adjMat u v = g.adjMat v u)
    (hirr : ∀ v, g.adjMat v v = false) :
    qSolveExact g = cliqueNum g.n g.adjMat := by
  apply le_antisymm
  · exact qExpand_sound g hsym hirr (List.range g.n).reverse [] 0
      (fun x hx => List.mem_range.mp (List.mem_reverse.mp hx))
      List.Pairwise.nil (by simp) (by intro c hc b hb; cases hb) (Nat.zero_le _)
  · apply cliqueNum_le
    intro s hs hc
    have hcomp := qExpand_complete g (List.range g.n).reverse [] 0 s
      (fun a ha => List.mem_reverse.mpr (List.mem_range.mpr (Finset.mem_range.mp (hs ha))))
      (by intro a ha b hb; cases hb) hc
    simpa using hcomp

/-! ## Supporting lemmas for the claims on `addEdge`, `k = 0` and `k < 0` -/

theorem addEdge_invalid (g : KGraph) (u v : Int)
    (h : u < 0 ∨ v < 0 ∨ (g.n : Int) ≤ u ∨ (g.n : Int) ≤ v ∨ u = v) :
    g.addEdge u v = g := by
  unfold KGraph.addEdge
  by_cases h1 : u < 0 ∨ v < 0 ∨ (g.n : Int) ≤ u ∨ (g.n : Int) ≤ v
  · rw [if_pos h1]
  · rw [if_neg h1]
    have huv : u = v := by tauto
    rw [if_pos (Or.inl (by rw [huv]))]

theorem addEdge_idem (g : KGraph) (u v : Int) :
    (g.addEdge u v).addEdge u v = g.addEdge u v := by
  by_cases h1 : u < 0 ∨ v < 0 ∨ (g.n : Int) ≤ u ∨ (g.n : Int) ≤ v
  · rw [show g.addEdge u v = g from by unfold KGraph.addEdge; rw [if_pos h1]]
    unfold KGraph.addEdge
    rw [if_pos h1]
  · by_cases h2 : u.toNat = v.toNat ∨ g.adjMat u.toNat v.toNat
    · rw [show g.addEdge u v = g from by
        unfold KGraph.addEdge; rw [if_neg h1, if_pos h2]]
      unfold KGraph.addEdge
      rw [if_neg h1, if_pos h2]
    · have hupd : g.addEdge u v =
          { n := g.n
            adjMat := fun a b =>
              if (a = u.toNat ∧ b = v.toNat) ∨ (a = v.toNat ∧ b = u.toNat) then true
              else g.adjMat a b
            adjList := fun a =>
              if a = u.toNat then setInsert v.toNat (g.adjList a)
              else if a = v.toNat then setInsert u.toNat (g.adjList a)
              else g.adjList a
            degrees := fun a =>
              if a = u.toNat ∨ a = v.toNat then g.degrees a + 1 else g.degrees a } := by
        unfold KGraph.addEdge
        rw [if_neg h1, if_neg h2]
      rw [hupd]
      unfold KGraph.addEdge
      rw [if_neg h1,
        if_pos (Or.inr (by
          show (if (u.toNat = u.toNat ∧ v.toNat = v.toNat) ∨
            (u.toNat = v.toNat ∧ v.toNat = u.toNat) then true
            else g.adjMat u.toNat v.toNat) = true
          rw [if_pos (Or.inl ⟨rfl, rfl⟩)]))]

theorem solveExact_k0 (g : KGraph) :
    (solveExact g 0).found = true ∧ (solveExact g 0).clique = [] ∧
      (solveExact g 0).nodesExplored = 1 := by
  unfold solveExact
  rw [backtrackE]
  norm_num

theorem classLoop_no_error (g : KGraph) (k : Int) (hk : 0 ≤ k) :
    ∀ (classes : List (List Nat)) (best : List Nat),
      ∃ b, classLoop g k classes best = .ok b := by
  intro classes
  induction classes with
  | nil => intro best; exact ⟨best, rfl⟩
  | cons c rest ih =>
    intro best
    rw [classLoop]
    split
    · split
      · refine ⟨(densify g k c).take k.toNat ++
          List.replicate (k.toNat - (densify g k c).length) 0, ?_⟩
        unfold vresize
        rw [if_neg (by omega)]
      · split
        · exact ih _
        · exact ih _
    · exact ih _

theorem greedySolve_no_error (g : KGraph) (k : Int) (hk : 0 ≤ k) :
    ∃ r, greedySolve g k = .ok r := by
  unfold greedySolve
  obtain ⟨b, hb⟩ := classLoop_no_error g k hk (colorClasses g) []
  rw [hb]
  exact ⟨_, rfl⟩

theorem greedySolve_k0 (g : KGraph) :
    greedySolve g 0 = .ok { clique := [], found := true } := by
  unfold greedySolve
  have hcl : classLoop g 0 (colorClasses g) [] = .ok [] := by
    cases hcc : colorClasses g with
    | nil => rfl
    | cons c rest =>
      rw [classLoop]
      rw [if_pos (by exact_mod_cast Int.natCast_nonneg c.length)]
      have hd : densify g 0 c = [] := by
        unfold densify
        rw [buildClique, dif_neg (fun hc => absurd hc.2 (by norm_num))]
      rw [if_pos ⟨by rw [hd]; norm_num, by rw [hd]; rfl⟩, hd]
      unfold vresize
      rw [if_neg (by norm_num)]
      simp
  rw [hcl]
  have hb2 : greedyBest2 g 0 [] = [] := by
    unfold greedyBest2
    rw [if_neg (by norm_num)]
  dsimp only
  rw [hb2]
  rfl

theorem colorClasses_ne_nil (g : KGraph) (h : 1 ≤ g.n) : colorClasses g ≠ [] := by
  unfold colorClasses
  intro hc
  rw [List.map_eq_nil] at hc
  have hlen := Finset.length_sort (α := Int) (· ≤ ·)
    (s := ((List.range g.n).map (greedyColoring g)).toFinset)
  rw [hc] at hlen
  have hmem : greedyColoring g 0 ∈ ((List.range g.n).map (greedyColoring g)).toFinset := by
    rw [List.mem_toFinset, List.mem_map]
    exact ⟨0, List.mem_range.mpr (by omega), rfl⟩
  have hpos := Finset.card_pos.mpr ⟨_, hmem⟩
  simp at hlen
  omega

theorem greedySolve_neg_error (g : KGraph) (hn : 1 ≤ g.n) (k : Int) (hk : k < 0) :
    greedySolve g k = .error () := by
  unfold greedySolve
  have hcl : classLoop g k (colorClasses g) [] = .error () := by
    cases hcc : colorClasses g with
    | nil => exact absurd hcc (colorClasses_ne_nil g hn)
    | cons c rest =>
      rw [classLoop]
      rw [if_pos (by
        have := Int.natCast_nonneg c.length
        omega)]
      have hd : densify g k c = [] := by
        unfold densify
        rw [buildClique, dif_neg (fun hc => absurd hc.2 (by omega))]
      rw [if_pos ⟨by rw [hd]; show (0 : Int) ≥ k; omega, by rw [hd]; rfl⟩, hd]
      unfold vresize
      rw [if_pos hk]
  rw [hcl]

/-! ## Symmetry and irreflexivity of built graphs (needed to instantiate the
optimality theorems at concrete inputs) -/

theorem mem_addEdge_adjSet (g : MCGraph) (x y u v : Nat) :
    v ∈ (g.addEdge x y).adjSet u ↔
      (u = x ∧ v = y) ∨ (u = y ∧ v = x) ∨ v ∈ g.adjSet u := by
  show v ∈ insertAt (insertAt g.adjSet x y) y x u ↔ _
  unfold insertAt
  constructor
  · intro h
    split_ifs at h <;> (try simp only [Finset.mem_insert] at h) <;> tauto
  · intro h
    split_ifs <;> (try simp only [Finset.mem_insert]) <;> tauto

theorem addEdgeMC_symm (g : MCGraph)
    (hg : ∀ u v, v ∈ g.adjSet u ↔ u ∈ g.adjSet v) (x y : Nat) :
    ∀ u v, v ∈ (g.addEdge x y).adjSet u ↔ u ∈ (g.addEdge x y).adjSet v := by
  intro u v
  rw [mem_addEdge_adjSet, mem_addEdge_adjSet, hg u v]
  tauto

theorem addEdgeMC_irrefl (g : MCGraph)
    (hg : ∀ v, v ∉ g.adjSet v) (x y : Nat) (hxy : x ≠ y) :
    ∀ v, v ∉ (g.addEdge x y).adjSet v := by
  intro v hv
  rw [mem_addEdge_adjSet] at hv
  rcases hv with ⟨h1, h2⟩ | ⟨h1, h2⟩ | h
  · exact hxy (h1 ▸ h2 ▸ rfl)
  · exact hxy (h2 ▸ h1 ▸ rfl)
  · exact hg v h

theorem mkMC_symmSet (n : Nat) (es : List (Nat × Nat)) :
    ∀ u v, v ∈ (mkMC n es).adjSet u ↔ u ∈ (mkMC n es).adjSet v := by
  unfold mkMC
  suffices h : ∀ g : MCGraph, (∀ u v, v ∈ g.adjSet u ↔ u ∈ g.adjSet v) →
      ∀ u v, v ∈ (es.foldl (fun g e => g.addEdge e.1 e.2) g).adjSet u ↔
        u ∈ (es.foldl (fun g e => g.addEdge e.1 e.2) g).adjSet v by
    exact h _ (fun u v => by simp [MCGraph.empty])
  induction es with
  | nil => intro g hg; exact hg
  | cons e rest ih => intro g hg; exact ih _ (addEdgeMC_symm g hg e.1 e.2)

theorem mkMC_symm (n : Nat) (es : List (Nat × Nat)) :
    ∀ u v, (mkMC n es).areAdjacent u v = (mkMC n es).areAdjacent v u := by
  intro u v
  unfold MCGraph.areAdjacent
  rw [decide_eq_decide]
  exact mkMC_symmSet n es u v

theorem mkMC_irrefl (n : Nat) (es : List (Nat × Nat))
    (hes : ∀ p ∈ es, p.1 ≠ p.2) :
    ∀ v, (mkMC n es).areAdjacent v v = false := by
  unfold mkMC
  suffices h : ∀ g : MCGraph, (∀ v, v ∉ g.adjSet v) →
      ∀ v, v ∉ ((es.foldl (fun g e => g.addEdge e.1 e.2) g).adjSet v) by
    intro v
    exact decide_eq_false (h _ (fun v => by simp [MCGraph.empty]) v)
  induction es with
  | nil => intro g hg; exact hg
  | cons e rest ih =>
    intro g hg
    exact ih (fun p hp => hes p (List.mem_cons_of_mem e hp)) _
      (addEdgeMC_irrefl g hg e.1 e.2 (hes e (List.mem_cons_self e rest)))

/-- One iteration of the edge-reading loop of `read_graph` in `kclique.cpp`
(the Q solver): if both endpoints are in range, both matrix entries are set
and both degree counters incremented; otherwise the edge is skipped. -/
def readEdge (g : QGraph) (e : Nat × Nat) : QGraph :=
  if e.1 < g.n ∧ e.2 < g.n then
    { g with
      adjMat := fun a b =>
        if (a = e.1 ∧ b = e.2) ∨ (a = e.2 ∧ b = e.1) then true
        else g.adjMat a b
      degrees := fun a =>
        (if a = e.1 then g.degrees a + 1 else g.degrees a) +
          (if a = e.2 then 1 else 0) }
  else g

/-- `read_graph` of `kclique.cpp`: fold `readEdge` over the listed edges. -/
def mkQ (n : Nat) (es : List (Nat × Nat)) : QGraph :=
  es.foldl readEdge
    { n := n, m := es.length, adjMat := fun _ _ => false, degrees := fun _ => 0 }

theorem readEdge_symm (g : QGraph) (hg : ∀ u v, g.adjMat u v = g.adjMat v u)
    (e : Nat × Nat) : ∀ u v, (readEdge g e).adjMat u v = (readEdge g e).adjMat v u := by
  intro u v
  unfold readEdge
  split
  · show (if (u = e.1 ∧ v = e.2) ∨ (u = e.2 ∧ v = e.1) then true
      else g.adjMat u v) =
      (if (v = e.1 ∧ u = e.2) ∨ (v = e.2 ∧ u = e.1) then true
      else g.adjMat v u)
    by_cases hc : (u = e.1 ∧ v = e.2) ∨ (u = e.2 ∧ v = e.1)
    · rw [if_pos hc, if_pos (by tauto)]
    · rw [if_neg hc, if_neg (by tauto), hg u v]
  · exact hg u v

theorem readEdge_irrefl (g : QGraph) (hg : ∀ v, g.adjMat v v = false)
    (e : Nat × Nat) (he : e.1 ≠ e.2) :
    ∀ v, (readEdge g e).adjMat v v = false := by
  intro v
  unfold readEdge
  split
  · show (if (v = e.1 ∧ v = e.2) ∨ (v = e.2 ∧ v = e.1) then true
      else g.adjMat v v) = false
    rw [if_neg, hg v]
    rintro (⟨h1, h2⟩ | ⟨h1, h2⟩)
    · exact he (h1 ▸ h2 ▸ rfl)
    · exact he (h2 ▸ h1 ▸ rfl)
  · exact hg v

theorem mkQ_symm (n : Nat) (es : List (Nat × Nat)) :
    ∀ u v, (mkQ n es).adjMat u v = (mkQ n es).adjMat v u := by
  unfold mkQ
  suffices h : ∀ g : QGraph, (∀ u v, g.adjMat u v = g.adjMat v u) →
      ∀ u v, (es.foldl readEdge g).adjMat u v = (es.foldl readEdge g).adjMat v u by
    exact h _ (fun u v => rfl)
  induction es with
  | nil => intro g hg; exact hg
  | cons e rest ih => intro g hg; exact ih _ (readEdge_symm g hg e)

theorem foldl_readEdge_irrefl :
    ∀ (es : List (Nat × Nat)) (g : QGraph), (∀ p ∈ es, p.1 ≠ p.2) →
      (∀ v, g.adjMat v v = false) →
      ∀ v, (es.foldl readEdge g).adjMat v v = false := by
  intro es
  induction es with
  | nil => intro g _ hg; exact hg
  | cons e rest ih =>
    intro g hs hg
    exact ih _ (fun p hp => hs p (List.mem_cons_of_mem e hp))
      (readEdge_irrefl g hg e (hs e (List.mem_cons_self e rest)))

theorem mkQ_irrefl (n : Nat) (es : List (Nat × Nat))
    (hes : ∀ p ∈ es, p.1 ≠ p.2) :
    ∀ v, (mkQ n es).adjMat v v = false :=
  foldl_readEdge_irrefl es _ hes (fun v => rfl)

/-! ## Concrete instances used by the witnesses and counterexamples -/

/-- The triangle on 3 vertices, built like `main` does from a 3-edge list. -/
def K3 : KGraph := mkGraph 3 [(0, 1), (0, 2), (1, 2)]

/-- Two disjoint triangles on 6 vertices. -/
def twoTriangles : KGraph :=
  mkGraph 6 [(0, 1), (0, 2), (1, 2), (3, 4), (3, 5), (4, 5)]

/-- A single isolated vertex. -/
def oneVertex : KGraph := mkGraph 1 []

/-- A deterministic oracle for `rand()`: every draw returns 0. -/
def zeroStream : Nat → Nat := fun _ => 0

/-- The triangle as a `maximum_clique.cpp` graph. -/
def MC3 : MCGraph := mkMC 3 [(0, 1), (0, 2), (1, 2)]

/-- The triangle as a Q-solver graph. -/
def Q3 : QGraph := mkQ 3 [(0, 1), (0, 2), (1, 2)]

/-! ## The claims -/

/-- C1: for every well-formed graph and every target `k ≥ 1`, whenever the
exact backtracking solver or the greedy coloring solver returns `found = true`
the returned clique passes `isClique` and has exactly `k` vertices, and
whenever the tabu search solver returns `found = true` the returned clique
passes `isClique` and has at least `k` vertices. -/
theorem claim_C1 (g : KGraph) (hg : g.Wf) (k : Int) (hk : 1 ≤ k) :
    ((solveExact g k).found = true →
      g.isCliqueB (solveExact g k).clique = true ∧
        ((solveExact g k).clique.length : Int) = k) ∧
    (∀ r, greedySolve g k = .ok r → r.found = true →
      g.isCliqueB r.clique = true ∧ (r.clique.length : Int) = k) ∧
    (∀ maxIter tenure rs, (tabuSolve g k maxIter tenure rs).found = true →
      g.isCliqueB (tabuSolve g k maxIter tenure rs).clique = true ∧
        ((tabuSolve g k maxIter tenure rs).clique.length : Int) ≥ k) :=
  ⟨fun h => solveExact_found g hg k h,
   fun r hr hf => greedySolve_found g k hk r hr hf,
   fun maxIter tenure rs h => tabuSolve_found g k maxIter tenure rs h⟩

unseal backtrackE btForE initLoop in
theorem claim_C1_witness :
    (K3.isCliqueB (solveExact K3 3).clique = true ∧
      ((solveExact K3 3).clique.length : Int) = 3) ∧
    (K3.isCliqueB (tabuSolve K3 3 10 10 zeroStream).clique = true ∧
      ((tabuSolve K3 3 10 10 zeroStream).clique.length : Int) ≥ 3) :=
  ⟨(claim_C1 K3 (wf_mkGraph 3 _) 3 (by decide)).1 (by decide),
   (claim_C1 K3 (wf_mkGraph 3 _) 3 (by decide)).2.2 10 10 zeroStream (by decide)⟩

/-- C2: on every symmetric loop-free graph, the maximum-clique sizes computed
by `ExactBacktracking::findMaxClique` and `BranchAndBound::findMaxClique` of
`maximum_clique.cpp` and by `solve_exact` of `kclique.cpp` all equal the
brute-force maximum over all subsets of the vertex range (`cliqueNum`); in
particular the three exact variants agree with each other. -/
theorem claim_C2 :
    (∀ g : MCGraph, (∀ u v, g.areAdjacent u v = g.areAdjacent v u) →
      (∀ v, g.areAdjacent v v = false) →
      (findMaxCliqueEB g).length = cliqueNum g.n (fun a b => g.areAdjacent a b) ∧
      (findMaxCliqueBB g).length = cliqueNum g.n (fun a b => g.areAdjacent a b)) ∧
    (∀ g : QGraph, (∀ u v, g.adjMat u v = g.adjMat v u) →
      (∀ v, g.adjMat v v = false) →
      qSolveExact g = cliqueNum g.n g.adjMat) :=
  ⟨fun g hs hi => ⟨findMaxCliqueEB_len g hs hi, findMaxCliqueBB_len g hs hi⟩,
   fun g hs hi => qSolveExact_eq g hs hi⟩

theorem claim_C2_witness :
    ((findMaxCliqueEB MC3).length =
        cliqueNum MC3.n (fun a b => MC3.areAdjacent a b) ∧
      (findMaxCliqueBB MC3).length =
        cliqueNum MC3.n (fun a b => MC3.areAdjacent a b)) ∧
    qSolveExact Q3 = cliqueNum Q3.n Q3.adjMat :=
  ⟨claim_C2.1 MC3 (mkMC_symm 3 _) (mkMC_irrefl 3 _ (by decide)),
   claim_C2.2 Q3 (mkQ_symm 3 _) (mkQ_irrefl 3 _ (by decide))⟩

/-- C3: once the decision-form exact search has set `found`, the candidate
loop at every ancestor level returns its state unchanged — no further
sibling is explored and `nodes_explored` does not increase. -/
theorem claim_C3 (g : KGraph) (k : Int) (i : Nat) (st : BTState)
    (h : st.found = true) :
    btForE g k i st = st ∧ (btForE g k i st).nodes = st.nodes := by
  have he : btForE g k i st = st := by
    rw [btForE]
    split <;> simp [h]
  exact ⟨he, by rw [he]⟩

theorem claim_C3_witness :
    btForE K3 3 1 { current := [0, 1, 2], best := [0, 1, 2], found := true, nodes := 5 } =
      { current := [0, 1, 2], best := [0, 1, 2], found := true, nodes := 5 } ∧
    (btForE K3 3 1 { current := [0, 1, 2], best := [0, 1, 2], found := true, nodes := 5 }).nodes = 5 :=
  claim_C3 K3 3 1 _ rfl

/-- C4 (amended): for the `Graph` of `k_clique_solver.cpp`, `addEdge`
preserves the invariants (symmetry, looplessness, `degree = |neighbors|`),
and a call with an endpoint outside `[0, n)` or with `u = v` leaves the graph
unchanged. As stated the claim is false for the repository's other `Graph`
variant: `maximum_clique.cpp`'s `addEdge` has no validation, so a self-loop
call mutates the adjacency state (see the counterexample). -/
theorem claim_C4 (g : KGraph) (hg : g.Wf) (u v : Int) :
    (g.addEdge u v).Wf ∧
      ((u < 0 ∨ v < 0 ∨ (g.n : Int) ≤ u ∨ (g.n : Int) ≤ v ∨ u = v) →
        g.addEdge u v = g) :=
  ⟨wf_addEdge hg u v, addEdge_invalid g u v⟩

theorem claim_C4_witness :
    (K3.addEdge 0 0).Wf ∧ K3.addEdge 0 0 = K3 :=
  ⟨(claim_C4 K3 (wf_mkGraph 3 _) 0 0).1,
   (claim_C4 K3 (wf_mkGraph 3 _) 0 0).2 (by decide)⟩

theorem claim_C4_cex :
    ¬((MCGraph.empty 2).addEdge 0 0).getDegree 0 =
      (MCGraph.empty 2).getDegree 0 := by decide

/-- C5 (amended): for the `Graph` of `k_clique_solver.cpp`, `addEdge` is
idempotent — repeating a call changes nothing, for any arguments, in-range or
not. As stated ("every Graph variant") the claim is false:
`maximum_clique.cpp`'s `addEdge` appends to the adjacency vectors
unconditionally, so a repeated call on distinct in-range vertices doubles the
degree (see the counterexample). -/
theorem claim_C5 (g : KGraph) (u v : Int) :
    (g.addEdge u v).addEdge u v = g.addEdge u v :=
  addEdge_idem g u v

theorem claim_C5_cex :
    ¬(((MCGraph.empty 2).addEdge 0 1).addEdge 0 1).getDegree 0 =
      ((MCGraph.empty 2).addEdge 0 1).getDegree 0 := by decide

/-- C6: in the tabu search, a vertex removed at iteration `a + 1` is not the
vertex added at any iteration `b + 1 < (a + 1) + tenure`, unless the
aspiration exception applies at that later iteration (adding would make
`current` strictly larger than `best`). -/
theorem claim_C6 (g : KGraph) (k : Int) (tenure : Nat) (rs : Nat → Nat)
    (a b v : Nat) (hab : a < b) (hwin : b + 1 < a + 1 + tenure)
    (hrem : removedVertexAt g k tenure rs a = some v)
    (hnoasp : ¬((tabuTraj g k tenure rs b).current.length + 1 >
      (tabuTraj g k tenure rs b).best.length)) :
    addedVertexAt g k tenure rs b ≠ some v :=
  tabu_tenure_step g k tenure rs a b v hab hwin hrem hnoasp

unseal initLoop in
theorem claim_C6_witness :
    addedVertexAt twoTriangles 4 10 zeroStream 1 ≠ some 0 :=
  claim_C6 twoTriangles 4 10 zeroStream 0 1 0 (by decide) (by decide)
    (by decide) (by decide)

/-- C7: on every well-formed graph, the degree-descending greedy coloring is
proper — every vertex gets a non-negative color and adjacent vertices get
different colors. -/
theorem claim_C7 (g : KGraph) (hg : g.Wf) :
    (∀ v, v < g.n → 0 ≤ greedyColoring g v) ∧
      (∀ u v, g.adjMat u v = true → greedyColoring g u ≠ greedyColoring g v) :=
  greedyColoring_proper g hg

theorem claim_C7_witness :
    0 ≤ greedyColoring K3 0 ∧ greedyColoring K3 0 ≠ greedyColoring K3 1 :=
  ⟨(claim_C7 K3 (wf_mkGraph 3 _)).1 0 (by decide),
   (claim_C7 K3 (wf_mkGraph 3 _)).2 0 1 (by decide)⟩

/-- C8: whenever a removal step occurs (no candidates, non-empty current
clique), the resulting `current` is `best` if the shrunken clique is under
half the size of `best` (integer division), and the shrunken clique
otherwise. -/
theorem claim_C8 (g : KGraph) (k : Int) (tenure : Nat) (rs : Nat → Nat)
    (s : TabuState) (hc : findCandidates g s.current = []) (hne : s.current ≠ []) :
    (tabuStep g k tenure rs s).current =
      if (s.current.eraseIdx (rs s.iter % s.current.length)).length <
          s.best.length / 2 then s.best
      else s.current.eraseIdx (rs s.iter % s.current.length) :=
  tabuStep_removal g k tenure rs s hc hne

unseal initLoop in
theorem claim_C8_witness :
    (tabuStep twoTriangles 4 10 zeroStream
        (tabuTraj twoTriangles 4 10 zeroStream 0)).current =
      if ((tabuTraj twoTriangles 4 10 zeroStream 0).current.eraseIdx
            (zeroStream (tabuTraj twoTriangles 4 10 zeroStream 0).iter %
              (tabuTraj twoTriangles 4 10 zeroStream 0).current.length)).length <
          (tabuTraj twoTriangles 4 10 zeroStream 0).best.length / 2 then
        (tabuTraj twoTriangles 4 10 zeroStream 0).best
      else
        (tabuTraj twoTriangles 4 10 zeroStream 0).current.eraseIdx
          (zeroStream (tabuTraj twoTriangles 4 10 zeroStream 0).iter %
            (tabuTraj twoTriangles 4 10 zeroStream 0).current.length) :=
  claim_C8 twoTriangles 4 10 zeroStream _ (by decide) (by decide)

/-- C9 (amended): at `k = 0` the exact solver succeeds immediately with the
empty clique after one node, and the greedy solver returns the empty clique
with `found = true`; but the tabu solver does NOT return an empty clique — its
initial solution already contains the best-degree start vertex, and it is
returned as the (nonempty) result with `found = true`. The claim as stated
("each solver returns an empty result clique") is therefore false (see the
counterexample). -/
theorem claim_C9 (g : KGraph) (hn : 1 ≤ g.n) (maxIter tenure : Nat)
    (rs : Nat → Nat) :
    ((solveExact g 0).found = true ∧ (solveExact g 0).clique = [] ∧
      (solveExact g 0).nodesExplored = 1) ∧
    greedySolve g 0 = .ok { clique := [], found := true } ∧
    ((tabuSolve g 0 maxIter tenure rs).found = true ∧
      (tabuSolve g 0 maxIter tenure rs).clique = [startNode g] ∧
      (tabuSolve g 0 maxIter tenure rs).clique ≠ []) := by
  refine ⟨solveExact_k0 g, greedySolve_k0 g, ?_, ?_, ?_⟩
  · show (decide (((tabuFinal g 0 maxIter tenure rs).best.length : Int) ≥ 0) &&
      g.isCliqueB (tabuFinal g 0 maxIter tenure rs).best) = true
    rw [tabuFinal_k0]
    simp [KGraph.isCliqueB]
  · show (tabuFinal g 0 maxIter tenure rs).best = [startNode g]
    exact tabuFinal_k0 g maxIter tenure rs
  · show (tabuFinal g 0 maxIter tenure rs).best ≠ []
    rw [tabuFinal_k0]
    simp

theorem claim_C9_witness :
    ((solveExact oneVertex 0).found = true ∧ (solveExact oneVertex 0).clique = [] ∧
      (solveExact oneVertex 0).nodesExplored = 1) ∧
    greedySolve oneVertex 0 = .ok { clique := [], found := true } ∧
    ((tabuSolve oneVertex 0 5 3 zeroStream).found = true ∧
      (tabuSolve oneVertex 0 5 3 zeroStream).clique = [startNode oneVertex] ∧
      (tabuSolve oneVertex 0 5 3 zeroStream).clique ≠ []) :=
  claim_C9 oneVertex (by decide) 5 3 zeroStream

unseal initLoop in
theorem claim_C9_cex : (tabuSolve oneVertex 0 7 3 zeroStream).clique ≠ [] := by
  decide

/-- C10: the greedy coloring solver only returns normally under `k ≥ 0`. On
any graph with at least one vertex and `k < 0`, the first color class passes
the size test, the densified empty clique passes the `0 ≥ k` check, and
`resize(k)` is reached with a negative argument, so the call does not return
normally (modelled as `Except.error`); for `k ≥ 0` the solver always returns
normally. -/
theorem claim_C10 :
    (∀ g : KGraph, 1 ≤ g.n → ∀ k : Int, k < 0 → greedySolve g k = .error ()) ∧
    (∀ (g : KGraph) (k : Int), 0 ≤ k → ∃ r, greedySolve g k = .ok r) :=
  ⟨fun g hn k hk => greedySolve_neg_error g hn k hk,
   fun g k hk => greedySolve_no_error g k hk⟩

theorem claim_C10_witness :
    greedySolve oneVertex (-1) = .error () ∧
      ∃ r, greedySolve oneVertex 0 = .ok r :=
  ⟨claim_C10.1 oneVertex (by decide) (-1) (by decide),
   claim_C10.2 oneVertex 0 (by decide)⟩

end KClique
